import Mathlib

/-!
Verification of djangocms-ranked-search against its specification.

Shallow embedding of the repository's core logic:

* `utils.py`       — folding profile merge and `normalize_text`;
* `forms.py`       — query sanitization `_q` and the weighted query builder
                     `CMSWeightedSearchForm.search`;
* `views.py`       — `_tokens`, `_jaccard` and the in-memory reranker
                     `CMSWeightedSearchView.paginate_queryset`;
* `whoosh_backend.py` — `WhooshLangBackend.build_schema`.

Python strings are modelled as lists of Unicode codepoints (`Str := List Nat`).
The Unicode tables consulted by `str.lower` and `unicodedata` are modelled over
the alphabet the repository targets: ASCII plus the Latin accented letters the
code names explicitly (á é í ó ú ü ñ and their uppercase forms).  Codepoints
outside this covered alphabet are treated as case-invariant atoms without
canonical decomposition, which matches Unicode for the inputs exercised here.
`unicodedata.normalize("NFD", ·)` followed by stripping combining marks and
`normalize("NFC", ·)` is modelled as per-codepoint decomposition followed by
the same filter: canonical reordering only permutes combining marks (which are
all removed) and canonical composition requires a remaining combining mark, so
NFC is the identity on the stripped text.

Python floats (backend scores, Jaccard values) are modelled as exact rationals;
every claim proved about them concerns only order and the exact values 0 and 1,
which float arithmetic computes exactly for the expressions in the code.
-/

/-- A Python string: a finite sequence of Unicode codepoints. -/
abbrev Str := List Nat

/-- Model of `str.lower` on one codepoint, covering ASCII letters and the
accented Latin letters named by the repository (Á É Í Ó Ú Ü Ñ).  Codepoints
outside the covered alphabet are case-invariant atoms. -/
def pyLowerCp (n : Nat) : Nat :=
  if 65 ≤ n ∧ n ≤ 90 then n + 32
  else if n = 0xC1 then 0xE1
  else if n = 0xC9 then 0xE9
  else if n = 0xCD then 0xED
  else if n = 0xD3 then 0xF3
  else if n = 0xDA then 0xFA
  else if n = 0xDC then 0xFC
  else if n = 0xD1 then 0xF1
  else n

/-- Model of `str.lower` on a whole string. -/
def pyLower (s : Str) : Str := s.map pyLowerCp

/-- Canonical decomposition (NFD) of one codepoint over the covered alphabet:
the seven lowercase accented letters decompose into their ASCII base letter
followed by a combining mark; everything else is an atom.  Only lowercased
text is ever decomposed by `normalize_text`, so uppercase entries are not
needed for the covered alphabet to be closed. -/
def nfdCp (n : Nat) : List Nat :=
  if n = 0xE1 then [97, 0x301]
  else if n = 0xE9 then [101, 0x301]
  else if n = 0xED then [105, 0x301]
  else if n = 0xF3 then [111, 0x301]
  else if n = 0xFA then [117, 0x301]
  else if n = 0xFC then [117, 0x308]
  else if n = 0xF1 then [110, 0x303]
  else [n]

/-- Model of `unicodedata.combining(c) != 0`: the combining diacritical marks
block U+0300–U+036F, which contains every mark produced by `nfdCp`. -/
def isCombining (n : Nat) : Bool := decide (0x300 ≤ n ∧ n ≤ 0x36F)

/-- Decompose one codepoint and drop its combining marks. -/
def stripCp (n : Nat) : List Nat := (nfdCp n).filter (fun c => !isCombining c)

/-- Fuel-driven worker for `pyReplace`; structural recursion on the fuel keeps
the definition kernel-reducible.  The fuel never runs out when it starts at
the length of the string (each step removes at least one codepoint). -/
def pyReplaceF : Nat → Str → Str → Str → Str
  | 0, s, _, _ => s
  | _ + 1, [], _, _ => []
  | f + 1, c :: rest, pat, rep =>
    if pat ≠ [] ∧ pat.isPrefixOf (c :: rest) then
      rep ++ pyReplaceF f ((c :: rest).drop pat.length) pat rep
    else
      c :: pyReplaceF f rest pat rep

/-- Model of `str.replace(pat, rep)`: replace non-overlapping occurrences of
`pat` left to right.  (For the empty pattern Python intersperses `rep`; the
repository always guards patterns to be non-empty, and this model leaves the
string unchanged in that unreachable case.) -/
def pyReplace (s pat rep : Str) : Str := pyReplaceF s.length s pat rep

/-- An effective folding profile, as produced by `_merge_profile`: the set of
preserved characters (modelled as a list, i.e. a finite set possibly listed
with repetitions) and the replacement dictionary (key/value pairs in the
dictionary's insertion order). -/
structure Profile where
  preserve : List Nat
  replace : List (Str × Str)
deriving DecidableEq

/-- Python dict insertion: update the (unique) existing entry for the key in
place, otherwise append the new pair at the end. -/
def pyDictInsert {α β : Type} [DecidableEq α] : List (α × β) → α → β → List (α × β)
  | [], k, v => [(k, v)]
  | p :: ps, k, v => if p.1 = k then (k, v) :: ps else p :: pyDictInsert ps k v

/-- Model of Python `sorted` on a set of codepoints (given as a list with
possible repetitions): the distinct elements in increasing order. -/
def pySortedSet (l : List Nat) : List Nat :=
  List.insertionSort (fun a b => a ≤ b) l.dedup

/-- The placeholder dictionary built by `normalize_text`:
`{ch.lower(): chr(0xE000 + idx) for idx, ch in enumerate(sorted(preserve))}`. -/
def placeholdersOf (preserve : List Nat) : List (Nat × Nat) :=
  ((pySortedSet preserve).enum).foldl
    (fun d iv => pyDictInsert d (pyLowerCp iv.2) (0xE000 + iv.1)) []

/-- The replacement pass of `normalize_text`: for every `src → dst` entry (in
dictionary order) with non-empty `src`, `text = text.replace(src.lower(),
dst.lower())`. -/
def applyReplaces (rs : List (Str × Str)) (t : Str) : Str :=
  rs.foldl (fun t sd => if sd.1 ≠ [] then pyReplace t (pyLower sd.1) (pyLower sd.2) else t) t

/-- Embedding of `utils.normalize_text(s, base_lang)` for an already-merged
profile: lower-case; apply the replacement dictionary; substitute a private-use
placeholder for each preserved character; decompose and strip combining marks
(NFD, filter, NFC — NFC is the identity here, see the header comment); restore
the preserved characters. -/
def normalize_text (p : Profile) (s : Str) : Str :=
  if s = [] then []
  else
    let text := pyLower s
    let text := applyReplaces p.replace text
    let phs := placeholdersOf p.preserve
    let text := phs.foldl (fun t kv => pyReplace t [kv.1] [kv.2]) text
    let text := ((text.map nfdCp).flatten).filter (fun c => !isCombining c)
    phs.foldl (fun t kv => pyReplace t [kv.2] [kv.1]) text

/-- The keys of the placeholder dictionary of a profile. -/
def keysOf (p : Profile) : List Nat := (placeholdersOf p.preserve).map Prod.fst

example : normalize_text ⟨[], []⟩ [0xC1, 66, 67] = [97, 98, 99] := by decide

example : normalize_text ⟨[0xF1], []⟩ [78, 0xD1, 0xF3] = [110, 0xF1, 111] := by decide

example : normalize_text ⟨[], [([0xDF], [115, 115])]⟩ [0xDF] = [115, 115] := by decide

/-- Codepoints of a Lean string literal, used to write readable constants. -/
def strLit (s : String) : Str := s.data.map Char.toNat

example : strLit "title_norm" = [116, 105, 116, 108, 101, 95, 110, 111, 114, 109] := by decide

/-- ASCII digit. -/
def isDigitCp (n : Nat) : Bool := decide (48 ≤ n ∧ n ≤ 57)

/-- The accented Latin letters named explicitly by the repository
(á é í ó ú ü ñ and uppercase forms). -/
def accentedLetters : List Nat :=
  [0xE1, 0xE9, 0xED, 0xF3, 0xFA, 0xFC, 0xF1, 0xC1, 0xC9, 0xCD, 0xD3, 0xDA, 0xDC, 0xD1]

/-- Model of the regex class `\w` (`re.UNICODE`) over the covered alphabet:
ASCII letters, digits, underscore, and the covered accented letters. -/
def isWordCp (n : Nat) : Bool :=
  decide ((48 ≤ n ∧ n ≤ 57) ∨ (65 ≤ n ∧ n ≤ 90) ∨ (97 ≤ n ∧ n ≤ 122) ∨ n = 95)
    || decide (n ∈ accentedLetters)

/-- Model of the regex class `\s` over the covered alphabet: space, tab,
newline, carriage return, form feed, vertical tab. -/
def isSpaceCp (n : Nat) : Bool := decide (n = 32 ∨ n = 9 ∨ n = 10 ∨ n = 13 ∨ n = 12 ∨ n = 11)

/-- Model of `str.strip()`: drop whitespace from both ends. -/
def pyStrip (s : Str) : Str :=
  ((s.dropWhile isSpaceCp).reverse.dropWhile isSpaceCp).reverse

/-- The character class kept by `_q`'s first substitution,
`[^\w\sáéíóúüñÁÉÍÓÚÜÑ-]` complemented: word characters, whitespace, the
explicitly listed accented letters (already inside `\w`), and the hyphen. -/
def allowedQCp (n : Nat) : Bool := isWordCp n || isSpaceCp n || decide (n = 45)

/-- Model of `re.sub(r"[^\w\sáéíóúüñÁÉÍÓÚÜÑ-]", " ", s)`: the pattern matches
single codepoints, so the substitution is a per-codepoint map to a space. -/
def subDisallowed (s : Str) : Str := s.map (fun c => if allowedQCp c then c else 32)

/-- Fuel-driven worker for `collapseWs` (structural recursion so the kernel
can evaluate it). -/
def collapseWsF : Nat → Str → Str
  | 0, s => s
  | _ + 1, [] => []
  | f + 1, c :: rest =>
    if isSpaceCp c then 32 :: collapseWsF f (rest.dropWhile isSpaceCp)
    else c :: collapseWsF f rest

/-- Model of `re.sub(r"\s+", " ", s)`: each maximal run of whitespace becomes
a single space. -/
def collapseWs (s : Str) : Str := collapseWsF s.length s

/-- Embedding of `forms._q`: strip, replace every disallowed codepoint by a
space, collapse whitespace runs. -/
def sanitize_q (s : Str) : Str := collapseWs (subDisallowed (pyStrip s))

example : sanitize_q (strLit "  Annual   Report ") = strLit "Annual Report" := by decide

example : sanitize_q (strLit "a!b") = strLit "a b" := by decide

/-- ASCII or covered accented letter — the claim's notion of "letter". -/
def isLetterCpSpec (n : Nat) : Bool :=
  decide ((65 ≤ n ∧ n ≤ 90) ∨ (97 ≤ n ∧ n ≤ 122)) || decide (n ∈ accentedLetters)

/-- Modelled from the spec's words for claim C7 (refinement comparison): strip
leading/trailing whitespace, REMOVE every character outside
[letters, digits, whitespace, hyphen], collapse whitespace runs to one space. -/
def sanitizeSpecC7 (s : Str) : Str :=
  collapseWs ((pyStrip s).filter
    (fun c => isLetterCpSpec c || isDigitCp c || isSpaceCp c || decide (c = 45)))

/-- The structured query plan emitted by `CMSWeightedSearchForm.search`: the
two boosted title clauses are `Raw` strings (boost spelled as a `^NN` suffix),
the broad clause is an `AutoQuery` over four fields.  Only the data the form
puts into the `SQ` tree is recorded. -/
structure SearchPlan where
  exactField : Str
  exactRaw : Str
  termField : Str
  termRaw : Str
  multiFields : List Str
  multiInput : Str
deriving DecidableEq, Inhabited

/-- Embedding of `CMSWeightedSearchForm.search`.  `valid` models
`self.is_valid()`, `user_q` the cleaned query `cleaned_data["q"]`,
`useNormalized` the result of `_use_normalized_fields()` (a configuration
flag or Xapian-backend detection), `prof` the merged folding profile used by
`normalize_text`.  Returns `none` for `self.no_query_found()`. -/
def CMSWeightedSearchForm_search (useNormalized : Bool) (prof : Profile)
    (valid : Bool) (user_q : Str) : Option SearchPlan :=
  if ¬ valid ∨ user_q = [] then none
  else
    let q_raw := sanitize_q user_q
    let q_norm := normalize_text prof q_raw
    if useNormalized then
      some
        { exactField := strLit "title_norm"
          exactRaw := [34] ++ q_norm ++ [34, 94] ++ strLit "50"
          termField := strLit "title_norm"
          termRaw := q_norm ++ [94] ++ strLit "10"
          multiFields :=
            [strLit "content_norm", strLit "title_norm", strLit "tags_norm", strLit "body_norm"]
          multiInput := q_norm }
    else
      some
        { exactField := strLit "title"
          exactRaw := [34] ++ q_raw ++ [34, 94] ++ strLit "50"
          termField := strLit "title"
          termRaw := q_raw ++ [94] ++ strLit "10"
          multiFields := [strLit "content", strLit "title", strLit "tags", strLit "body"]
          multiInput := user_q }

/-- Numeric value of a string of ASCII digits. -/
def digitsToNat (ds : Str) : Nat := ds.foldl (fun acc d => 10 * acc + (d - 48)) 0

/-- The boost carried by a `Raw` clause string: the numeral after a final
`^`, if any. -/
def caretBoost (s : Str) : Option Nat :=
  let r := s.reverse
  let ds := r.takeWhile isDigitCp
  if ds ≠ [] ∧ (r.drop ds.length).head? = some 94 then some (digitsToNat ds.reverse)
  else none

example :
    caretBoost ((CMSWeightedSearchForm_search true ⟨[], []⟩ true (strLit "budget")).getD
      default |>.exactRaw) = some 50 := by decide

/-- One backend hit as the reranker reads it: its stored `title` and the
backend relevance `score` (`getattr(res, "score", 0.0) or 0.0` is modelled by
making the field total; a missing/None/0.0 score is the value 0). -/
structure Candidate where
  title : Str
  score : ℚ
deriving DecidableEq, Inhabited

/-- The ambient configuration of the reranker: the tokenizer `TOKENIZE`
(a language-aware analyzer or the regex fallback — the claims hold for any
tokenizer function), the merged folding profile behind `_normalize`, and the
stopword override set `STOP_EXTRA = RERANK_STOPWORDS_ADD − RERANK_STOPWORDS_REMOVE`. -/
structure RerankCfg where
  tokenize : Str → List Str
  profile : Profile
  stopExtra : List Str

/-- Embedding of `views._normalize` (the `lru_cache` memoizes a pure function
and is semantically the identity). -/
def vNormalize (cfg : RerankCfg) (s : Str) : Str := normalize_text cfg.profile s

/-- Embedding of `views._tokens`: normalize, tokenize, drop custom stopwords
and tokens of length ≤ 1. -/
def vTokens (cfg : RerankCfg) (s : Str) : List Str :=
  (cfg.tokenize (vNormalize cfg s)).filter
    (fun t => !(cfg.stopExtra.contains t) && decide (1 < t.length))

/-- Embedding of `views._jaccard`: `len(A & B) / len(A | B)` over the two
filtered token sets when both are non-empty, else `0.0`. -/
def jaccard (cfg : RerankCfg) (query title : Str) : ℚ :=
  let A := (vTokens cfg query).toFinset
  let B := (vTokens cfg title).toFinset
  if A ≠ ∅ ∧ B ≠ ∅ then ((A ∩ B).card : ℚ) / ((A ∪ B).card : ℚ) else 0

/-- The regex fallback tokenizer of `views._build_tokenizer`:
`re.findall(r"[\w\d]+", text)` — the maximal runs of word codepoints. -/
def regexTokens (s : Str) : List Str :=
  (s.foldr
    (fun c acc => if isWordCp c then ((c :: acc.headD []) :: acc.tail) else [] :: acc)
    [[]]).filter (fun t => t ≠ [])

example : regexTokens (strLit "annual report") = [strLit "annual", strLit "report"] := by decide

/-- The sort key tuple of `paginate_queryset.key`, ordered lexicographically
exactly as Python orders tuples:
`(not exact, -pct, -score, toks_len, t_norm)`. -/
abbrev RerankKey := Bool ×ₗ (ℚ ×ₗ (ℚ ×ₗ (ℕ ×ₗ Str)))

/-- The key tuple computed from a candidate's normalized title `t_norm` and
its token list `toks` (the caller passes the already-memoized values; for an
exact match the token list is never consulted and the code leaves
`pct = 0.0`, `toks_len = 0`). -/
def keyFromNorm (q_norm : Str) (q_tokens : Finset Str) (res : Candidate)
    (t_norm : Str) (toks : List Str) : RerankKey :=
  if t_norm = q_norm then
    toLex (false, toLex ((0 : ℚ), toLex (-res.score, toLex ((0 : ℕ), t_norm))))
  else
    let toksSet := toks.toFinset
    let pct : ℚ :=
      if q_tokens ≠ ∅ ∧ toks ≠ [] then
        if (q_tokens ∪ toksSet).card ≠ 0 then
          ((q_tokens ∩ toksSet).card : ℚ) / ((q_tokens ∪ toksSet).card : ℚ)
        else 0
      else 0
    toLex (true, toLex (-pct, toLex (-res.score, toLex (toks.length, t_norm))))

/-- The cache-free sort key of one candidate: `paginate_queryset.key(res)`. -/
def keyOf (cfg : RerankCfg) (q : Str) (res : Candidate) : RerankKey :=
  keyFromNorm (vNormalize cfg q) ((vTokens cfg q).toFinset) res
    (vNormalize cfg res.title) (vTokens cfg res.title)

/-- Comparison of two candidates by their sort keys. -/
def candLe (cfg : RerankCfg) (q : Str) (a b : Candidate) : Prop :=
  keyOf cfg q a ≤ keyOf cfg q b

instance (cfg : RerankCfg) (q : Str) : DecidableRel (candLe cfg q) :=
  fun a b => inferInstanceAs (Decidable (keyOf cfg q a ≤ keyOf cfg q b))

/-- The reranked pool: `items.sort(key=key)` — the stable ascending sort of
the pool by the key tuples (insertion sort is that stable sort). -/
def rerankPool (cfg : RerankCfg) (q : Str) (items : List Candidate) : List Candidate :=
  List.insertionSort (candLe cfg q) items

/-- Python `dict.get` on an association-list model of the dict. -/
def lookupCache {β : Type} : List (Str × β) → Str → Option β
  | [], _ => none
  | (k', v) :: rest, k => if k' = k then some v else lookupCache rest k

/-- `cache.get(key)` followed by compute-and-store on a miss, returning the
value and the updated cache. -/
def cacheGet {β : Type} (c : List (Str × β)) (t : Str) (f : Str → β) : β × List (Str × β) :=
  match lookupCache c t with
  | some v => (v, c)
  | none => (f t, (t, f t) :: c)

/-- The decorate pass of `items.sort(key=key)` as the code runs it: the keys
are computed in list order while the two per-title caches
(`title_norm_cache`, `title_tokens_cache`) fill; the tokens cache is only
consulted and filled for non-exact titles. -/
def decorate (cfg : RerankCfg) (q_norm : Str) (q_tokens : Finset Str) :
    List Candidate → List (Str × Str) → List (Str × List Str) → List RerankKey
  | [], _, _ => []
  | res :: rest, nc, tc =>
    let n := cacheGet nc res.title (vNormalize cfg)
    if n.1 = q_norm then
      keyFromNorm q_norm q_tokens res n.1 [] ::
        decorate cfg q_norm q_tokens rest n.2 tc
    else
      let t := cacheGet tc res.title (vTokens cfg)
      keyFromNorm q_norm q_tokens res n.1 t.1 ::
        decorate cfg q_norm q_tokens rest n.2 t.2

/-- Comparison of decorated (candidate, key) pairs by their precomputed keys,
which is how `list.sort(key=...)` compares elements. -/
def pairKeyLe (a b : Candidate × RerankKey) : Prop := a.2 ≤ b.2

instance : DecidableRel pairKeyLe :=
  fun a b => inferInstanceAs (Decidable (a.2 ≤ b.2))

/-- The sort as executed: decorate with the memoizing caches (starting empty),
stable-sort the decorated pairs by key, undecorate. -/
def rerankCached (cfg : RerankCfg) (q : Str) (items : List Candidate) : List Candidate :=
  let q_norm := vNormalize cfg q
  let q_tokens := (vTokens cfg q).toFinset
  let ks := decorate cfg q_norm q_tokens items [] []
  (List.insertionSort pairKeyLe (items.zip ks)).map Prod.fst

/-- The pool-size computation of `paginate_queryset` (`RERANK_POOL` falsy —
absent, None or 0 — falls back to `max(page_size * 10, 200)`; the result is
clamped by `RERANK_CEILING`). -/
def poolSize (explicitPool : Option Nat) (page_size ceiling : Nat) : Nat :=
  let pool := explicitPool.getD 0
  let pool := if pool = 0 then max (page_size * 10) 200 else pool
  min pool ceiling

/-- Django's `Paginator.num_pages` with `orphans = 0` and
`allow_empty_first_page = True` (the defaults `DiggPaginator` inherits):
`ceil(max(1, count) / per_page)`. -/
def djNumPages (count per : Nat) : Nat := max 1 ((count + per - 1) / per)

/-- Embedding of `CMSWeightedSearchView.paginate_queryset`: clamp the backend
queryset to the pool window, rerank it in memory, and slice the requested
page; an invalid page number (including out of range, modelled by `none` for
a missing/non-numeric `page` parameter) falls back to page 1.  Returns
`(object_list, num_pages, has_other_pages)` — the paginator/page objects are
represented by the data the claims are about. -/
def paginate_queryset (cfg : RerankCfg) (explicitPool : Option Nat) (ceiling : Nat)
    (raw_q : Str) (pageReq : Option Nat) (queryset : List Candidate)
    (page_size : Nat) : List Candidate × Nat × Bool :=
  let pool := poolSize explicitPool page_size ceiling
  let items := queryset.take pool
  let sorted := rerankCached cfg raw_q items
  let np := djNumPages sorted.length page_size
  let pnum := pageReq.getD 1
  let p := if 1 ≤ pnum ∧ pnum ≤ np then pnum else 1
  ((sorted.drop ((p - 1) * page_size)).take page_size, np, decide (1 < np))

/-- One haystack field as `build_schema` reads it (the dict key `field_name`
is never used by the loop body, so only the field objects are modelled, in
iteration order). -/
structure FieldClass where
  index_fieldname : Str
  field_type : Str
  is_multivalued : Bool
  indexed : Bool
  stored : Bool
  boost : ℚ
  document : Bool
deriving DecidableEq

/-- A concrete whoosh field definition, one constructor per branch of the
dispatch in `WhooshLangBackend.build_schema`.  The analyzer chain of `TEXT`
fields is determined by the configuration, not by the descriptor, so it is
not part of this per-field data. -/
inductive WhooshField where
  | whooshId (stored unique : Bool)
  | idlist (stored : Bool) (boost : ℚ)
  | keyword (stored commas scorable : Bool) (boost : ℚ)
  | datetime (stored sortable : Bool)
  | numericInt (stored : Bool) (boost : ℚ)
  | numericFloat (stored : Bool) (boost : ℚ)
  | boolean (stored : Bool)
  | ngram (minsize maxsize : Nat) (stored : Bool) (boost : ℚ)
  | ngramwords (minsize maxsize : Nat) (atStart stored : Bool) (boost : ℚ)
  | text (stored sortable : Bool) (boost : ℚ)
deriving DecidableEq

/-- A schema entry: the field definition plus its `spelling` flag (mutated to
`True` on the document field after insertion). -/
structure SchemaEntry where
  field : WhooshField
  spelling : Bool
deriving DecidableEq

/-- The type dispatch of `build_schema` for one field descriptor. -/
def fieldFor (fc : FieldClass) : WhooshField :=
  if fc.is_multivalued then
    if fc.indexed = false then .idlist fc.stored fc.boost
    else .keyword fc.stored true true fc.boost
  else if fc.field_type = strLit "date" ∨ fc.field_type = strLit "datetime" then
    .datetime fc.stored true
  else if fc.field_type = strLit "integer" then .numericInt fc.stored fc.boost
  else if fc.field_type = strLit "float" then .numericFloat fc.stored fc.boost
  else if fc.field_type = strLit "boolean" then .boolean fc.stored
  else if fc.field_type = strLit "ngram" then .ngram 3 15 fc.stored fc.boost
  else if fc.field_type = strLit "edge_ngram" then .ngramwords 2 15 true fc.stored fc.boost
  else .text fc.stored true fc.boost

/-- Haystack's `ID` constant. -/
def haystackID : Str := strLit "id"

/-- Haystack's `DJANGO_CT` constant. -/
def haystackCT : Str := strLit "django_ct"

/-- Haystack's `DJANGO_ID` constant. -/
def haystackDID : Str := strLit "django_id"

/-- Set the `spelling` flag of the entry stored under `name`. -/
def setSpelling (d : List (Str × SchemaEntry)) (name : Str) : List (Str × SchemaEntry) :=
  d.map (fun p => if p.1 = name then (p.1, { p.2 with spelling := true }) else p)

/-- The initial `schema_fields` dict: the three mandatory identity fields. -/
def initSchemaFields : List (Str × SchemaEntry) :=
  [(haystackID, ⟨.whooshId true true, false⟩),
   (haystackCT, ⟨.whooshId true false, false⟩),
   (haystackDID, ⟨.whooshId true false, false⟩)]

/-- The loop body of `build_schema`: insert the dispatched field under its
`index_fieldname`, then, if it is the document field, remember its name and
flag it for spelling. -/
def buildSchemaStep (acc : List (Str × SchemaEntry) × Str) (fc : FieldClass) :
    List (Str × SchemaEntry) × Str :=
  let d := pyDictInsert acc.1 fc.index_fieldname ⟨fieldFor fc, false⟩
  if fc.document then (setSpelling d fc.index_fieldname, fc.index_fieldname)
  else (d, acc.2)

/-- Embedding of `WhooshLangBackend.build_schema`: raise `SearchBackendError`
when no field beyond the three identity keys made it into the dict, else
return `(content_field_name, Schema(**schema_fields))`. -/
def build_schema (fields : List FieldClass) :
    Except Str (Str × List (Str × SchemaEntry)) :=
  let init := initSchemaFields
  let res := fields.foldl buildSchemaStep (init, [])
  if res.1.length ≤ init.length then
    .error (strLit "No fields were found in any search_indexes.")
  else
    .ok (res.2, res.1)

example : (build_schema []).isOk = false := by decide

example :
    (build_schema [⟨strLit "text", strLit "text", false, true, true, 1, true⟩]).isOk = true := by
  decide

/-- Claim C1 (counterexample): with the replacement profile `{e → x}` and the
input "é", one normalization yields "e" (the replacement does not fire on the
composed "é", which is then folded to "e"), but a second normalization fires
the replacement and yields "x" — `normalize ∘ normalize ≠ normalize` for this
derivable profile. -/
theorem C1_counterexample :
    ¬ (normalize_text ⟨[], [([101], [120])]⟩
        (normalize_text ⟨[], [([101], [120])]⟩ [0xE9])
      = normalize_text ⟨[], [([101], [120])]⟩ [0xE9]) := by
  decide

/-- Claim C2 (counterexample): the preserved character "Ñ" (U+00D1) occurs in
the input, yet it does not appear unchanged in the output — `normalize_text`
lower-cases everything first, so the output holds "ñ" (U+00F1) instead. -/
theorem C2_counterexample :
    (0xD1 : Nat) ∈ (⟨[0xD1], []⟩ : Profile).preserve
    ∧ (0xD1 : Nat) ∈ ([0xD1] : Str)
    ∧ (0xD1 : Nat) ∉ normalize_text ⟨[0xD1], []⟩ [0xD1] := by
  decide

/-- Claim C4: `_jaccard` is symmetric in its two arguments, returns exactly 0
whenever either filtered token set is empty, and returns exactly 1 whenever
the two filtered token sets are identical and non-empty — for every tokenizer,
profile and stopword configuration. -/
theorem C4_jaccard_properties (cfg : RerankCfg) (a b : Str) :
    jaccard cfg a b = jaccard cfg b a
    ∧ ((vTokens cfg a).toFinset = ∅ ∨ (vTokens cfg b).toFinset = ∅ →
        jaccard cfg a b = 0)
    ∧ ((vTokens cfg a).toFinset = (vTokens cfg b).toFinset →
        (vTokens cfg a).toFinset ≠ ∅ → jaccard cfg a b = 1) := by
  refine ⟨?_, ?_, ?_⟩
  · simp only [jaccard]
    rw [Finset.inter_comm, Finset.union_comm]
    exact if_congr and_comm rfl rfl
  · rintro (h | h) <;> simp [jaccard, h]
  · intro hab hne
    have hne' : (vTokens cfg b).toFinset ≠ ∅ := hab ▸ hne
    have hcard : ((vTokens cfg b).toFinset.card : ℚ) ≠ 0 := by
      exact_mod_cast Finset.card_ne_zero.mpr (Finset.nonempty_iff_ne_empty.mpr hne')
    simp only [jaccard, hab]
    rw [if_pos ⟨hne', hne'⟩, Finset.inter_self, Finset.union_self, div_self hcard]

/-- Witness for C4 at a concrete configuration (the regex fallback tokenizer,
an empty profile): symmetry on two queries, 0 on an empty-token argument, 1 on
identical non-empty token sets. -/
theorem C4_jaccard_properties_witness :
    jaccard ⟨regexTokens, ⟨[], []⟩, []⟩ (strLit "annual report") (strLit "report annual")
      = jaccard ⟨regexTokens, ⟨[], []⟩, []⟩ (strLit "report annual") (strLit "annual report")
    ∧ jaccard ⟨regexTokens, ⟨[], []⟩, []⟩ [] (strLit "annual report") = 0
    ∧ jaccard ⟨regexTokens, ⟨[], []⟩, []⟩ (strLit "annual report") (strLit "annual report") = 1 :=
  ⟨(C4_jaccard_properties _ _ _).1,
   (C4_jaccard_properties ⟨regexTokens, ⟨[], []⟩, []⟩ [] (strLit "annual report")).2.1
     (Or.inl (by decide)),
   (C4_jaccard_properties ⟨regexTokens, ⟨[], []⟩, []⟩ (strLit "annual report")
       (strLit "annual report")).2.2 rfl (by decide)⟩

/-- Claim C5 (counterexample): `RERANK_POOL = 0` is an explicitly configured
pool value, but the code treats every falsy value as unset — the effective
pool is the clamped default 300, not the clamped explicit value `min 0 300`. -/
theorem C5_counterexample : poolSize (some 0) 50 300 ≠ min 0 300 := by decide

/-- Claim C5 (amended): the effective pool equals the explicitly configured
value clamped by the ceiling when the configured value is non-zero; when the
setting is absent (or zero, which Python truthiness treats as unset) it is
`max(page_size * 10, 200)` clamped by the ceiling; in particular
`page_size = 50` with no explicit pool and ceiling 300 yields 300. -/
theorem C5_pool_size (e : Option Nat) (ps c : Nat) :
    (∀ v, e = some v → v ≠ 0 → poolSize e ps c = min v c)
    ∧ (e = none ∨ e = some 0 → poolSize e ps c = min (max (ps * 10) 200) c)
    ∧ poolSize none 50 300 = 300 := by
  refine ⟨?_, ?_, by decide⟩
  · rintro v rfl hv
    simp [poolSize, hv]
  · rintro (rfl | rfl) <;> simp [poolSize]

/-- Witness for C5 at concrete inputs: an explicit pool of 700 with ceiling
1000, the default branch for an absent setting, and the claim's own numeric
example. -/
theorem C5_pool_size_witness :
    poolSize (some 700) 50 1000 = min 700 1000
    ∧ poolSize none 50 300 = min (max (50 * 10) 200) 300
    ∧ poolSize none 50 300 = 300 :=
  ⟨(C5_pool_size (some 700) 50 1000).1 700 rfl (by decide),
   (C5_pool_size none 50 300).2.1 (Or.inl rfl),
   (C5_pool_size none 50 300).2.2⟩

/-- Decorating a pool computes one key per candidate, whatever the caches. -/
theorem decorate_length (cfg : RerankCfg) (q_norm : Str) (q_tokens : Finset Str) :
    ∀ (items : List Candidate) (nc : List (Str × Str)) (tc : List (Str × List Str)),
      (decorate cfg q_norm q_tokens items nc tc).length = items.length := by
  intro items
  induction items with
  | nil => intro nc tc; rfl
  | cons res rest ih =>
    intro nc tc
    simp only [decorate]
    split <;> simp [ih]

/-- The sort of `paginate_queryset` neither adds nor removes candidates. -/
theorem rerankCached_length (cfg : RerankCfg) (q : Str) (items : List Candidate) :
    (rerankCached cfg q items).length = items.length := by
  simp [rerankCached, List.length_insertionSort, List.length_zip, decorate_length]

/-- The `has_other_pages` component returned by `paginate_queryset` is
`num_pages > 1` computed over the whole reranked pool, for any requested
page. -/
theorem paginate_hasmore_eq (cfg : RerankCfg) (e : Option Nat) (ceil : Nat) (q : Str)
    (pr : Option Nat) (qs : List Candidate) (ps : Nat) :
    (paginate_queryset cfg e ceil q pr qs ps).2.2
      = decide (1 < djNumPages ((qs.take (poolSize e ps ceil)).length) ps) := by
  simp [paginate_queryset, rerankCached_length]

/-- Claim C10: the has-more-pages flag equals "the whole reranked pool spans
more than one page", and is therefore independent of which page was
requested — it does not say whether the returned page has a successor. -/
theorem C10_has_other_pages (cfg : RerankCfg) (e : Option Nat) (ceil : Nat) (q : Str)
    (qs : List Candidate) (ps : Nat) :
    (∀ pr, (paginate_queryset cfg e ceil q pr qs ps).2.2
      = decide (1 < djNumPages ((qs.take (poolSize e ps ceil)).length) ps))
    ∧ ∀ pr1 pr2, (paginate_queryset cfg e ceil q pr1 qs ps).2.2
      = (paginate_queryset cfg e ceil q pr2 qs ps).2.2 :=
  ⟨fun pr => paginate_hasmore_eq cfg e ceil q pr qs ps,
   fun pr1 pr2 =>
    (paginate_hasmore_eq cfg e ceil q pr1 qs ps).trans
      (paginate_hasmore_eq cfg e ceil q pr2 qs ps).symm⟩

/-- A string ending in a caret and two digits carries the boost spelled by
those digits, whatever precedes the caret. -/
theorem caretBoost_suffix (x : Str) (d1 d2 : Nat) (h1 : isDigitCp d1 = true)
    (h2 : isDigitCp d2 = true) :
    caretBoost (x ++ [94, d1, d2]) = some (10 * (d1 - 48) + (d2 - 48)) := by
  have h94 : isDigitCp 94 = false := by decide
  have hrev : (x ++ [94, d1, d2]).reverse = d2 :: d1 :: 94 :: x.reverse := by simp
  simp [caretBoost, hrev, List.takeWhile_cons, h1, h2, h94, digitsToNat]

/-- Claim C6: for every non-empty (validated) query and both field variants,
the emitted exact-title clause carries boost 50 and the term-title clause
carries boost 10. -/
theorem C6_boosts (useNormalized : Bool) (prof : Profile) (user_q : Str)
    (hq : user_q ≠ []) :
    ∃ plan, CMSWeightedSearchForm_search useNormalized prof true user_q = some plan
      ∧ caretBoost plan.exactRaw = some 50 ∧ caretBoost plan.termRaw = some 10 := by
  have h50 : strLit "50" = [53, 48] := by decide
  have h10 : strLit "10" = [49, 48] := by decide
  cases useNormalized with
  | false =>
    have hs : CMSWeightedSearchForm_search false prof true user_q
        = some
          { exactField := strLit "title"
            exactRaw := [34] ++ sanitize_q user_q ++ [34, 94] ++ strLit "50"
            termField := strLit "title"
            termRaw := sanitize_q user_q ++ [94] ++ strLit "10"
            multiFields := [strLit "content", strLit "title", strLit "tags", strLit "body"]
            multiInput := user_q } := by
      simp [CMSWeightedSearchForm_search, hq]
    refine ⟨_, hs, ?_, ?_⟩
    · show caretBoost ([34] ++ sanitize_q user_q ++ [34, 94] ++ strLit "50") = some 50
      have : [34] ++ sanitize_q user_q ++ [34, 94] ++ strLit "50"
          = ([34] ++ sanitize_q user_q ++ [34]) ++ [94, 53, 48] := by
        simp [h50]
      rw [this, caretBoost_suffix _ 53 48 (by decide) (by decide)]
    · show caretBoost (sanitize_q user_q ++ [94] ++ strLit "10") = some 10
      have : sanitize_q user_q ++ [94] ++ strLit "10"
          = sanitize_q user_q ++ [94, 49, 48] := by simp [h10]
      rw [this, caretBoost_suffix _ 49 48 (by decide) (by decide)]
  | true =>
    have hs : CMSWeightedSearchForm_search true prof true user_q
        = some
          { exactField := strLit "title_norm"
            exactRaw :=
              [34] ++ normalize_text prof (sanitize_q user_q) ++ [34, 94] ++ strLit "50"
            termField := strLit "title_norm"
            termRaw := normalize_text prof (sanitize_q user_q) ++ [94] ++ strLit "10"
            multiFields :=
              [strLit "content_norm", strLit "title_norm", strLit "tags_norm", strLit "body_norm"]
            multiInput := normalize_text prof (sanitize_q user_q) } := by
      simp [CMSWeightedSearchForm_search, hq]
    refine ⟨_, hs, ?_, ?_⟩
    · show caretBoost
          ([34] ++ normalize_text prof (sanitize_q user_q) ++ [34, 94] ++ strLit "50")
        = some 50
      have : [34] ++ normalize_text prof (sanitize_q user_q) ++ [34, 94] ++ strLit "50"
          = ([34] ++ normalize_text prof (sanitize_q user_q) ++ [34]) ++ [94, 53, 48] := by
        simp [h50]
      rw [this, caretBoost_suffix _ 53 48 (by decide) (by decide)]
    · show caretBoost (normalize_text prof (sanitize_q user_q) ++ [94] ++ strLit "10")
        = some 10
      have : normalize_text prof (sanitize_q user_q) ++ [94] ++ strLit "10"
          = normalize_text prof (sanitize_q user_q) ++ [94, 49, 48] := by simp [h10]
      rw [this, caretBoost_suffix _ 49 48 (by decide) (by decide)]

/-- Witness for C6: the claim's own query "budget", both variants. -/
theorem C6_boosts_witness :
    (∃ plan, CMSWeightedSearchForm_search false ⟨[], []⟩ true (strLit "budget") = some plan
      ∧ caretBoost plan.exactRaw = some 50 ∧ caretBoost plan.termRaw = some 10)
    ∧ ∃ plan, CMSWeightedSearchForm_search true ⟨[], []⟩ true (strLit "budget") = some plan
      ∧ caretBoost plan.exactRaw = some 50 ∧ caretBoost plan.termRaw = some 10 :=
  ⟨C6_boosts false ⟨[], []⟩ (strLit "budget") (by decide),
   C6_boosts true ⟨[], []⟩ (strLit "budget") (by decide)⟩

/-- Replacing a single-codepoint pattern by a single-codepoint replacement is
a per-codepoint map (the worker version, for any sufficient fuel). -/
theorem pyReplaceF_single (a b : Nat) :
    ∀ (s : Str) (f : Nat), s.length ≤ f →
      pyReplaceF f s [a] [b] = s.map (fun x => if x = a then b else x) := by
  intro s
  induction s with
  | nil => intro f _; cases f <;> rfl
  | cons c rest ih =>
    intro f hf
    cases f with
    | zero => simp at hf
    | succ f =>
      have hf' : rest.length ≤ f := by simpa using hf
      by_cases hac : a = c
      · subst hac
        have hpre : ([a] : Str) ≠ [] ∧ ([a] : Str).isPrefixOf (a :: rest) := by
          simp [List.isPrefixOf]
        simp only [pyReplaceF, if_pos hpre, List.length_cons, List.length_nil,
          Nat.zero_add, List.drop_succ_cons, List.drop_zero, List.map_cons,
          List.singleton_append]
        rw [ih f hf']
        simp
      · have hpre : ¬ (([a] : Str) ≠ [] ∧ ([a] : Str).isPrefixOf (c :: rest)) := by
          simp [List.isPrefixOf, hac]
        simp only [pyReplaceF, if_neg hpre, List.map_cons, if_neg (Ne.symm hac)]
        rw [ih f hf']

/-- `str.replace` with single-codepoint pattern and replacement is a map. -/
theorem pyReplace_single (s : Str) (a b : Nat) :
    pyReplace s [a] [b] = s.map (fun x => if x = a then b else x) :=
  pyReplaceF_single a b s s.length le_rfl

/-- A fold of single-codepoint replacements over a pair list is the map of the
folded per-codepoint substitution. -/
theorem foldl_replace_map (f g : Nat × Nat → Nat) :
    ∀ (phs : List (Nat × Nat)) (s : Str),
      phs.foldl (fun t kv => pyReplace t [f kv] [g kv]) s
        = s.map (fun x => phs.foldl (fun y kv => if y = f kv then g kv else y) x) := by
  intro phs
  induction phs with
  | nil => intro s; simp
  | cons kv ps ih =>
    intro s
    simp only [List.foldl_cons]
    rw [pyReplace_single, ih, List.map_map]
    rfl

/-- The per-codepoint substitution performed by the placeholder pass. -/
def chainSub (phs : List (Nat × Nat)) (x : Nat) : Nat :=
  phs.foldl (fun y kv => if y = kv.1 then kv.2 else y) x

/-- The per-codepoint substitution performed by the restore pass. -/
def chainRes (phs : List (Nat × Nat)) (x : Nat) : Nat :=
  phs.foldl (fun y kv => if y = kv.2 then kv.1 else y) x

theorem chainSub_of_not_mem :
    ∀ (phs : List (Nat × Nat)) (x : Nat), x ∉ phs.map Prod.fst → chainSub phs x = x := by
  intro phs
  induction phs with
  | nil => intro x _; rfl
  | cons kv ps ih =>
    intro x hx
    simp only [List.map_cons, List.mem_cons, not_or] at hx
    simp only [chainSub, List.foldl_cons, if_neg hx.1]
    exact ih x hx.2

theorem chainSub_of_ge :
    ∀ (phs : List (Nat × Nat)) (x : Nat), (∀ kv ∈ phs, kv.1 < 0xE000) → 0xE000 ≤ x →
      chainSub phs x = x := by
  intro phs
  induction phs with
  | nil => intro x _ _; rfl
  | cons kv ps ih =>
    intro x hk hx
    have h1 : kv.1 < 0xE000 := hk kv (List.mem_cons_self kv ps)
    have hne : x ≠ kv.1 := by omega
    simp only [chainSub, List.foldl_cons, if_neg hne]
    exact ih x (fun p hp => hk p (List.mem_cons_of_mem kv hp)) hx

theorem chainSub_eq_of_mem :
    ∀ (phs : List (Nat × Nat)) (k v : Nat), (phs.map Prod.fst).Nodup →
      (∀ kv ∈ phs, kv.1 < 0xE000 ∧ 0xE000 ≤ kv.2) → (k, v) ∈ phs →
      chainSub phs k = v := by
  intro phs
  induction phs with
  | nil => intro k v _ _ h; cases h
  | cons kv ps ih =>
    intro k v hnd hb hmem
    rcases List.mem_cons.mp hmem with heq | hmem'
    · have hk : kv.1 = k := by rw [← heq]
      have hv : kv.2 = v := by rw [← heq]
      simp only [chainSub, List.foldl_cons, hk, if_pos rfl, hv]
      exact chainSub_of_ge ps v (fun p hp => (hb p (List.mem_cons_of_mem kv hp)).1)
        (hv ▸ (hb kv (List.mem_cons_self kv ps)).2)
    · rw [List.map_cons] at hnd
      have hknd : kv.1 ∉ ps.map Prod.fst := (List.nodup_cons.mp hnd).1
      have hkmem : k ∈ ps.map Prod.fst := List.mem_map_of_mem Prod.fst hmem'
      have hne : k ≠ kv.1 := fun h => hknd (h ▸ hkmem)
      simp only [chainSub, List.foldl_cons, if_neg hne]
      exact ih k v (List.nodup_cons.mp hnd).2
        (fun p hp => hb p (List.mem_cons_of_mem kv hp)) hmem'

theorem chainRes_of_lt :
    ∀ (phs : List (Nat × Nat)) (x : Nat), (∀ kv ∈ phs, 0xE000 ≤ kv.2) → x < 0xE000 →
      chainRes phs x = x := by
  intro phs
  induction phs with
  | nil => intro x _ _; rfl
  | cons kv ps ih =>
    intro x hk hx
    have h2 : 0xE000 ≤ kv.2 := hk kv (List.mem_cons_self kv ps)
    have hne : x ≠ kv.2 := by omega
    simp only [chainRes, List.foldl_cons, if_neg hne]
    exact ih x (fun p hp => hk p (List.mem_cons_of_mem kv hp)) hx

theorem chainRes_eq_of_mem :
    ∀ (phs : List (Nat × Nat)) (k v : Nat), (phs.map Prod.snd).Nodup →
      (∀ kv ∈ phs, kv.1 < 0xE000 ∧ 0xE000 ≤ kv.2) → (k, v) ∈ phs →
      chainRes phs v = k := by
  intro phs
  induction phs with
  | nil => intro k v _ _ h; cases h
  | cons kv ps ih =>
    intro k v hnd hb hmem
    rcases List.mem_cons.mp hmem with heq | hmem'
    · have hk : kv.1 = k := by rw [← heq]
      have hv : kv.2 = v := by rw [← heq]
      simp only [chainRes, List.foldl_cons, hv, if_pos rfl, hk]
      exact chainRes_of_lt ps k (fun p hp => (hb p (List.mem_cons_of_mem kv hp)).2)
        (hk ▸ (hb kv (List.mem_cons_self kv ps)).1)
    · rw [List.map_cons] at hnd
      have hvnd : kv.2 ∉ ps.map Prod.snd := (List.nodup_cons.mp hnd).1
      have hvmem : v ∈ ps.map Prod.snd := List.mem_map_of_mem Prod.snd hmem'
      have hne : v ≠ kv.2 := fun h => hvnd (h ▸ hvmem)
      simp only [chainRes, List.foldl_cons, if_neg hne]
      exact ih k v (List.nodup_cons.mp hnd).2
        (fun p hp => hb p (List.mem_cons_of_mem kv hp)) hmem'

theorem pyDictInsert_mem {α β : Type} [DecidableEq α] :
    ∀ (d : List (α × β)) (k : α) (v : β) (kv : α × β),
      kv ∈ pyDictInsert d k v → kv ∈ d ∨ kv = (k, v) := by
  intro d
  induction d with
  | nil => intro k v kv h; simp [pyDictInsert] at h; exact Or.inr h
  | cons p ps ih =>
    intro k v kv h
    simp only [pyDictInsert] at h
    by_cases hp : p.1 = k
    · rw [if_pos hp] at h
      rcases List.mem_cons.mp h with h1 | h1
      · exact Or.inr h1
      · exact Or.inl (List.mem_cons_of_mem p h1)
    · rw [if_neg hp] at h
      rcases List.mem_cons.mp h with h1 | h1
      · exact Or.inl (h1 ▸ List.mem_cons_self p ps)
      · rcases ih k v kv h1 with h2 | h2
        · exact Or.inl (List.mem_cons_of_mem p h2)
        · exact Or.inr h2

theorem pyDictInsert_keys_mem {α β : Type} [DecidableEq α] :
    ∀ (d : List (α × β)) (k : α) (v : β) (x : α),
      x ∈ (pyDictInsert d k v).map Prod.fst ↔ x = k ∨ x ∈ d.map Prod.fst := by
  intro d
  induction d with
  | nil => intro k v x; simp [pyDictInsert]
  | cons p ps ih =>
    intro k v x
    simp only [pyDictInsert]
    by_cases hp : p.1 = k
    · rw [if_pos hp]
      simp only [List.map_cons, List.mem_cons, hp]
      tauto
    · rw [if_neg hp]
      simp only [List.map_cons, List.mem_cons, ih]
      tauto

theorem pyDictInsert_keys_nodup {α β : Type} [DecidableEq α] :
    ∀ (d : List (α × β)) (k : α) (v : β),
      (d.map Prod.fst).Nodup → ((pyDictInsert d k v).map Prod.fst).Nodup := by
  intro d
  induction d with
  | nil => intro k v _; simp [pyDictInsert]
  | cons p ps ih =>
    intro k v hnd
    rw [List.map_cons] at hnd
    simp only [pyDictInsert]
    by_cases hp : p.1 = k
    · rw [if_pos hp, List.map_cons]
      exact List.nodup_cons.mpr ⟨hp ▸ (List.nodup_cons.mp hnd).1, (List.nodup_cons.mp hnd).2⟩
    · rw [if_neg hp, List.map_cons]
      refine List.nodup_cons.mpr ⟨?_, ih k v (List.nodup_cons.mp hnd).2⟩
      intro hmem
      rcases (pyDictInsert_keys_mem ps k v p.1).mp hmem with h1 | h1
      · exact hp h1
      · exact (List.nodup_cons.mp hnd).1 h1

theorem pyDictInsert_vals_nodup {α β : Type} [DecidableEq α] :
    ∀ (d : List (α × β)) (k : α) (v : β),
      (d.map Prod.snd).Nodup → (∀ kv ∈ d, kv.2 ≠ v) →
      ((pyDictInsert d k v).map Prod.snd).Nodup := by
  intro d
  induction d with
  | nil => intro k v _ _; simp [pyDictInsert]
  | cons p ps ih =>
    intro k v hnd hne
    rw [List.map_cons] at hnd
    simp only [pyDictInsert]
    by_cases hp : p.1 = k
    · rw [if_pos hp, List.map_cons]
      refine List.nodup_cons.mpr ⟨?_, (List.nodup_cons.mp hnd).2⟩
      intro hmem
      rcases List.mem_map.mp hmem with ⟨q, hq, hq2⟩
      exact hne q (List.mem_cons_of_mem p hq) hq2
    · rw [if_neg hp, List.map_cons]
      refine List.nodup_cons.mpr
        ⟨?_, ih k v (List.nodup_cons.mp hnd).2 (fun q hq => hne q (List.mem_cons_of_mem p hq))⟩
      intro hmem
      rcases List.mem_map.mp hmem with ⟨q, hq, hq2⟩
      rcases pyDictInsert_mem ps k v q hq with h1 | h1
      · exact (List.nodup_cons.mp hnd).1 (hq2 ▸ List.mem_map_of_mem Prod.snd h1)
      · exact hne p (List.mem_cons_self p ps) (by rw [← hq2, h1])

/-- The elementwise invariant of the placeholder dictionary: distinct keys,
distinct values, keys below the private-use area and lower-stable, values in
the private-use area below the running index bound. -/
def PhInv (n : Nat) (d : List (Nat × Nat)) : Prop :=
  (d.map Prod.fst).Nodup ∧ (d.map Prod.snd).Nodup
  ∧ ∀ kv ∈ d, kv.1 < 0xE000 ∧ pyLowerCp kv.1 = kv.1 ∧ 0xE000 ≤ kv.2 ∧ kv.2 < 0xE000 + n

theorem pyLowerCp_lt (n : Nat) (h : n < 0xE000) : pyLowerCp n < 0xE000 := by
  unfold pyLowerCp
  split_ifs <;> omega

theorem pyLowerCp_of_gt (n : Nat) (h : 122 < n) (h2 : n ≠ 0xC1) (h3 : n ≠ 0xC9)
    (h4 : n ≠ 0xCD) (h5 : n ≠ 0xD3) (h6 : n ≠ 0xDA) (h7 : n ≠ 0xDC) (h8 : n ≠ 0xD1) :
    pyLowerCp n = n := by
  unfold pyLowerCp
  split_ifs <;> omega

theorem pyLowerCp_idem (n : Nat) : pyLowerCp (pyLowerCp n) = pyLowerCp n := by
  by_cases h1 : 65 ≤ n ∧ n ≤ 90
  · have hn : pyLowerCp n = n + 32 := by rw [pyLowerCp, if_pos h1]
    rw [hn]
    unfold pyLowerCp
    split_ifs <;> omega
  · rcases Nat.lt_or_ge n 123 with hlow | hhigh
    · have hn : pyLowerCp n = n := by
        unfold pyLowerCp
        split_ifs <;> omega
      rw [hn, hn]
    · by_cases h2 : n = 0xC1
      · subst h2; decide
      · by_cases h3 : n = 0xC9
        · subst h3; decide
        · by_cases h4 : n = 0xCD
          · subst h4; decide
          · by_cases h5 : n = 0xD3
            · subst h5; decide
            · by_cases h6 : n = 0xDA
              · subst h6; decide
              · by_cases h7 : n = 0xDC
                · subst h7; decide
                · by_cases h8 : n = 0xD1
                  · subst h8; decide
                  · have hn : pyLowerCp n = n :=
                      pyLowerCp_of_gt n (by omega) h2 h3 h4 h5 h6 h7 h8
                    rw [hn, hn]

theorem ph_fold_inv :
    ∀ (xs : List Nat) (n : Nat) (d : List (Nat × Nat)), PhInv n d → (∀ c ∈ xs, c < 0xE000) →
      PhInv (n + xs.length)
        ((List.enumFrom n xs).foldl
          (fun d iv => pyDictInsert d (pyLowerCp iv.2) (0xE000 + iv.1)) d) := by
  intro xs
  induction xs with
  | nil => intro n d hd _; simpa using hd
  | cons c rest ih =>
    intro n d hd hxs
    have hc : c < 0xE000 := hxs c (List.mem_cons_self c rest)
    have hstep : PhInv (n + 1) (pyDictInsert d (pyLowerCp c) (0xE000 + n)) := by
      obtain ⟨hk, hv, hall⟩ := hd
      refine ⟨pyDictInsert_keys_nodup d _ _ hk,
        pyDictInsert_vals_nodup d _ _ hv (fun kv hkv => by
          have := (hall kv hkv).2.2.2
          omega), ?_⟩
      intro kv hkv
      rcases pyDictInsert_mem d _ _ kv hkv with h1 | h1
      · have := hall kv h1
        exact ⟨this.1, this.2.1, this.2.2.1, by omega⟩
      · subst h1
        exact ⟨pyLowerCp_lt c hc, pyLowerCp_idem c, by omega, by omega⟩
    have := ih (n + 1) (pyDictInsert d (pyLowerCp c) (0xE000 + n)) hstep
      (fun x hx => hxs x (List.mem_cons_of_mem c hx))
    simp only [List.enumFrom, List.foldl_cons]
    simpa [Nat.add_comm, Nat.add_assoc, Nat.add_left_comm] using this

/-- The placeholder dictionary of a profile whose preserve characters lie
below the private-use area satisfies the invariant. -/
theorem placeholders_inv (preserve : List Nat) (hp : ∀ c ∈ preserve, c < 0xE000) :
    PhInv (pySortedSet preserve).length (placeholdersOf preserve) := by
  have hmem : ∀ c ∈ pySortedSet preserve, c < 0xE000 := by
    intro c hc
    have : c ∈ preserve := by
      have h1 := (List.mem_insertionSort (fun a b => a ≤ b)).mp hc
      exact List.mem_dedup.mp h1
    exact hp c this
  have h0 : PhInv 0 ([] : List (Nat × Nat)) := by
    refine ⟨List.nodup_nil, List.nodup_nil, ?_⟩
    intro kv hkv; cases hkv
  have := ph_fold_inv (pySortedSet preserve) 0 [] h0 hmem
  simpa [placeholdersOf, List.enum] using this

theorem nfdCp_of_ge (n : Nat) (h : 0xE000 ≤ n) : nfdCp n = [n] := by
  unfold nfdCp
  split_ifs <;> first | rfl | omega

theorem isCombining_of_ge (n : Nat) (h : 0xE000 ≤ n) : isCombining n = false := by
  simp only [isCombining, decide_eq_false_iff_not, not_and, not_le]
  omega

/-- Stability of the stripped decomposition of a lower-stable codepoint: each
produced codepoint is itself lower-stable, an atom under strip, not a
combining mark, and bounded when the source is. -/
theorem strip_stable_core (m b : Nat) (hmi : pyLowerCp m = m) (hb : b ∈ stripCp m) :
    pyLowerCp b = b ∧ stripCp b = [b] ∧ isCombining b = false ∧ (m < 0xE000 → b < 0xE000) := by
  unfold stripCp nfdCp at hb
  split_ifs at hb with h1 h2 h3 h4 h5 h6 h7
  · simp [isCombining] at hb
    subst hb
    exact ⟨by decide, by decide, by decide, fun _ => by decide⟩
  · simp [isCombining] at hb
    subst hb
    exact ⟨by decide, by decide, by decide, fun _ => by decide⟩
  · simp [isCombining] at hb
    subst hb
    exact ⟨by decide, by decide, by decide, fun _ => by decide⟩
  · simp [isCombining] at hb
    subst hb
    exact ⟨by decide, by decide, by decide, fun _ => by decide⟩
  · simp [isCombining] at hb
    subst hb
    exact ⟨by decide, by decide, by decide, fun _ => by decide⟩
  · simp [isCombining] at hb
    subst hb
    exact ⟨by decide, by decide, by decide, fun _ => by decide⟩
  · simp [isCombining] at hb
    subst hb
    exact ⟨by decide, by decide, by decide, fun _ => by decide⟩
  · rcases List.mem_filter.mp hb with ⟨hm, hcomb⟩
    rcases List.mem_singleton.mp hm with rfl
    refine ⟨hmi, ?_, by simpa using hcomb, fun h => h⟩
    unfold stripCp nfdCp
    split_ifs
    simp [List.filter, hcomb]

/-- Stability for strip applied after lower-casing an arbitrary codepoint. -/
theorem strip_stable (n b : Nat) (hb : b ∈ stripCp (pyLowerCp n)) :
    pyLowerCp b = b ∧ stripCp b = [b] ∧ isCombining b = false
      ∧ (n < 0xE000 → b < 0xE000) := by
  have h := strip_stable_core (pyLowerCp n) b (pyLowerCp_idem n) hb
  exact ⟨h.1, h.2.1, h.2.2.1, fun hn => h.2.2.2 (pyLowerCp_lt n hn)⟩

theorem keys_fold_mem :
    ∀ (xs : List Nat) (n : Nat) (d : List (Nat × Nat)) (x : Nat),
      x ∈ ((List.enumFrom n xs).foldl
          (fun d iv => pyDictInsert d (pyLowerCp iv.2) (0xE000 + iv.1)) d).map Prod.fst
        ↔ x ∈ d.map Prod.fst ∨ ∃ ch ∈ xs, pyLowerCp ch = x := by
  intro xs
  induction xs with
  | nil => intro n d x; simp
  | cons c rest ih =>
    intro n d x
    simp only [List.enumFrom, List.foldl_cons]
    rw [ih]
    rw [pyDictInsert_keys_mem]
    constructor
    · rintro ((h | h) | ⟨ch, hch, hx⟩)
      · exact Or.inr ⟨c, List.mem_cons_self c rest, h.symm⟩
      · exact Or.inl h
      · exact Or.inr ⟨ch, List.mem_cons_of_mem c hch, hx⟩
    · rintro (h | ⟨ch, hch, hx⟩)
      · exact Or.inl (Or.inr h)
      · rcases List.mem_cons.mp hch with rfl | hch'
        · exact Or.inl (Or.inl hx.symm)
        · exact Or.inr ⟨ch, hch', hx⟩

/-- Characterization of the placeholder-dictionary keys: exactly the
lower-cased preserve characters. -/
theorem mem_keysOf_iff (p : Profile) (x : Nat) :
    x ∈ keysOf p ↔ ∃ ch ∈ p.preserve, pyLowerCp ch = x := by
  have h := keys_fold_mem (pySortedSet p.preserve) 0 [] x
  simp only [List.map_nil, List.not_mem_nil, false_or] at h
  rw [keysOf, placeholdersOf, List.enum, h]
  constructor
  · rintro ⟨ch, hch, hx⟩
    refine ⟨ch, ?_, hx⟩
    exact List.mem_dedup.mp ((List.mem_insertionSort (fun a b => a ≤ b)).mp hch)
  · rintro ⟨ch, hch, hx⟩
    refine ⟨ch, ?_, hx⟩
    exact (List.mem_insertionSort (fun a b => a ≤ b)).mpr (List.mem_dedup.mpr hch)

/-- The per-codepoint action of `normalize_text` (empty replace map): a
preserved (placeholder-dictionary key) codepoint survives unchanged, any
other codepoint is decomposed with its combining marks dropped. -/
def foldCp (p : Profile) (c : Nat) : List Nat :=
  if c ∈ keysOf p then [c] else stripCp c

/-- Structure theorem for `normalize_text` with an empty replace map over
ordinary (non-private-use) text: the whole pipeline — lower-case, placeholder
substitution, NFD, combining-mark strip, NFC, placeholder restore — acts
per-codepoint. -/
theorem normalize_eq_flatten (p : Profile) (hr : p.replace = [])
    (hp : ∀ c ∈ p.preserve, c < 0xE000) (s : Str) (hs : ∀ c ∈ s, c < 0xE000) :
    normalize_text p s = ((pyLower s).map (foldCp p)).flatten := by
  by_cases hse : s = []
  · subst hse; simp [normalize_text, pyLower]
  · obtain ⟨hknd, hvnd, hall⟩ := placeholders_inv p.preserve hp
    have hbounds : ∀ kv ∈ placeholdersOf p.preserve, kv.1 < 0xE000 ∧ 0xE000 ≤ kv.2 :=
      fun kv hkv => ⟨(hall kv hkv).1, (hall kv hkv).2.2.1⟩
    have hvge : ∀ kv ∈ placeholdersOf p.preserve, 0xE000 ≤ kv.2 :=
      fun kv hkv => (hall kv hkv).2.2.1
    have hbody : normalize_text p s
        = (placeholdersOf p.preserve).foldl (fun t kv => pyReplace t [kv.2] [kv.1])
            (((((placeholdersOf p.preserve).foldl (fun t kv => pyReplace t [kv.1] [kv.2])
                (applyReplaces p.replace (pyLower s))).map nfdCp).flatten).filter
              (fun c => !isCombining c)) := by
      simp only [normalize_text, if_neg hse]
    rw [hbody, hr]
    simp only [applyReplaces, List.foldl_nil]
    rw [foldl_replace_map Prod.fst Prod.snd, foldl_replace_map Prod.snd Prod.fst]
    rw [List.map_map, List.filter_flatten, List.map_flatten, List.map_map, List.map_map]
    congr 1
    apply List.map_congr_left
    intro c hcs
    rcases List.mem_map.mp hcs with ⟨x, hxs, rfl⟩
    by_cases hck : pyLowerCp x ∈ keysOf p
    · rcases List.mem_map.mp hck with ⟨kv, hkv, hkvc⟩
      rcases kv with ⟨k1, k2⟩
      have hk1 : k1 = pyLowerCp x := hkvc
      have hsub : chainSub (placeholdersOf p.preserve) (pyLowerCp x) = k2 := by
        rw [← hk1]
        exact chainSub_eq_of_mem _ k1 k2 hknd hbounds hkv
      have hge : 0xE000 ≤ k2 := (hbounds _ hkv).2
      have hres : chainRes (placeholdersOf p.preserve) k2 = k1 :=
        chainRes_eq_of_mem _ k1 k2 hvnd hbounds hkv
      unfold chainSub at hsub
      unfold chainRes at hres
      simp only [Function.comp_apply]
      rw [hsub, nfdCp_of_ge k2 hge]
      rw [show List.filter (fun c => !isCombining c) [k2] = [k2] by
        simp [isCombining_of_ge k2 hge]]
      rw [List.map_singleton, hres, hk1, foldCp, if_pos hck]
    · have hsub : chainSub (placeholdersOf p.preserve) (pyLowerCp x) = pyLowerCp x :=
        chainSub_of_not_mem _ _ hck
      unfold chainSub at hsub
      simp only [Function.comp_apply]
      rw [hsub, foldCp, if_neg hck]
      have hid : ∀ b ∈ (nfdCp (pyLowerCp x)).filter (fun c => !isCombining c),
          List.foldl (fun y kv => if y = kv.2 then kv.1 else y) b
            (placeholdersOf p.preserve) = b := by
        intro b hb
        have hblt : b < 0xE000 := (strip_stable x b hb).2.2.2 (hs x hxs)
        exact chainRes_of_lt _ b hvge hblt
      rw [List.map_congr_left hid]
      exact List.map_id' _

theorem map_self_of_id {α : Type} (l : List α) (f : α → α) (h : ∀ x ∈ l, f x = x) :
    l.map f = l := by
  induction l with
  | nil => rfl
  | cons a rest ih =>
    simp only [List.map_cons, h a (List.mem_cons_self a rest)]
    rw [ih (fun x hx => h x (List.mem_cons_of_mem a hx))]

theorem flatten_map_singleton {α : Type} (l : List α) (g : α → List α)
    (h : ∀ x ∈ l, g x = [x]) : (l.map g).flatten = l := by
  induction l with
  | nil => rfl
  | cons a rest ih =>
    simp only [List.map_cons, List.flatten_cons, h a (List.mem_cons_self a rest)]
    rw [ih (fun x hx => h x (List.mem_cons_of_mem a hx))]
    rfl

/-- Every codepoint of a normalized string (empty replace map, ordinary text)
is lower-stable, a fixed point of the per-codepoint action, below the
private-use area, and not a combining mark unless it is a preserved key. -/
theorem normalize_out_stable (p : Profile) (hr : p.replace = [])
    (hp : ∀ c ∈ p.preserve, c < 0xE000) (s : Str) (hs : ∀ c ∈ s, c < 0xE000) :
    ∀ c' ∈ normalize_text p s,
      pyLowerCp c' = c' ∧ foldCp p c' = [c'] ∧ c' < 0xE000
        ∧ (isCombining c' = false ∨ c' ∈ keysOf p) := by
  intro c' hc'
  rw [normalize_eq_flatten p hr hp s hs] at hc'
  rcases List.mem_flatten.mp hc' with ⟨l, hl, hc'l⟩
  rcases List.mem_map.mp hl with ⟨c, hcs, rfl⟩
  rcases List.mem_map.mp hcs with ⟨x, hxs, rfl⟩
  by_cases hck : pyLowerCp x ∈ keysOf p
  · rw [foldCp, if_pos hck] at hc'l
    rcases List.mem_singleton.mp hc'l with rfl
    refine ⟨pyLowerCp_idem x, ?_, pyLowerCp_lt x (hs x hxs), Or.inr hck⟩
    rw [foldCp, if_pos hck]
  · rw [foldCp, if_neg hck] at hc'l
    have hst := strip_stable x c' hc'l
    refine ⟨hst.1, ?_, hst.2.2.2 (hs x hxs), Or.inl hst.2.2.1⟩
    by_cases h2 : c' ∈ keysOf p
    · rw [foldCp, if_pos h2]
    · rw [foldCp, if_neg h2]
      exact hst.2.1

/-- Claim C1 (amended): `normalize_text` is idempotent for every profile whose
replace map is empty and whose preserve characters are ordinary (below the
private-use placeholder area), on every string of ordinary codepoints.  The
counterexample shows the replace pass breaks idempotence in general. -/
theorem C1_idempotent_amended (p : Profile) (hr : p.replace = [])
    (hp : ∀ c ∈ p.preserve, c < 0xE000) (s : Str) (hs : ∀ c ∈ s, c < 0xE000) :
    normalize_text p (normalize_text p s) = normalize_text p s := by
  have hout := normalize_out_stable p hr hp s hs
  have hs' : ∀ c ∈ normalize_text p s, c < 0xE000 := fun c hc => (hout c hc).2.2.1
  rw [normalize_eq_flatten p hr hp _ hs']
  have hlow : pyLower (normalize_text p s) = normalize_text p s :=
    map_self_of_id _ _ (fun c hc => (hout c hc).1)
  rw [hlow]
  exact flatten_map_singleton _ _ (fun c hc => (hout c hc).2.1)

/-- Witness for the amended C1: a Spanish-style profile preserving "ñ" on the
input "ÁÑB". -/
theorem C1_idempotent_amended_witness :
    normalize_text ⟨[0xF1], []⟩ (normalize_text ⟨[0xF1], []⟩ [0xC1, 0xD1, 66])
      = normalize_text ⟨[0xF1], []⟩ [0xC1, 0xD1, 66] :=
  C1_idempotent_amended ⟨[0xF1], []⟩ rfl (by decide) [0xC1, 0xD1, 66] (by decide)

/-- Claim C2 (amended): over profiles with an empty replace map and ordinary,
non-combining preserve characters, and ordinary input text: (1) a preserved
character that is its own lower-case form and occurs in the input occurs in
the output (the counterexample shows an uppercase preserved character is
lower-cased first, so "unchanged" holds only up to that lower-casing); (2) an
occurrence of an accented character whose lower-case form is not preserved
contributes its base character, accent stripped; (3) no combining mark
survives in the output. -/
theorem C2_preserve_amended (p : Profile) (hr : p.replace = [])
    (hp : ∀ c ∈ p.preserve, c < 0xE000)
    (hpc : ∀ c ∈ p.preserve, isCombining (pyLowerCp c) = false)
    (s : Str) (hs : ∀ c ∈ s, c < 0xE000) :
    (∀ c ∈ s, pyLowerCp c = c → c ∈ p.preserve → c ∈ normalize_text p s)
    ∧ (∀ a ∈ s, pyLowerCp a ∉ keysOf p →
        ∀ b mk, nfdCp (pyLowerCp a) = [b, mk] → isCombining mk = true →
          isCombining b = false → b ∈ normalize_text p s)
    ∧ (∀ x ∈ normalize_text p s, isCombining x = false) := by
  refine ⟨?_, ?_, ?_⟩
  · intro c hcs hcl hcp
    have hck : c ∈ keysOf p := (mem_keysOf_iff p c).mpr ⟨c, hcp, hcl⟩
    rw [normalize_eq_flatten p hr hp s hs]
    apply List.mem_flatten.mpr
    refine ⟨foldCp p c, ?_, ?_⟩
    · exact List.mem_map_of_mem _ (List.mem_map.mpr ⟨c, hcs, hcl⟩)
    · rw [foldCp, if_pos hck]
      exact List.mem_singleton.mpr rfl
  · intro a has hak b mk hdec hmk hb
    rw [normalize_eq_flatten p hr hp s hs]
    apply List.mem_flatten.mpr
    refine ⟨foldCp p (pyLowerCp a), List.mem_map_of_mem _ (List.mem_map_of_mem _ has), ?_⟩
    rw [foldCp, if_neg hak]
    unfold stripCp
    rw [hdec]
    simp [hmk, hb]
  · intro x hx
    have h := normalize_out_stable p hr hp s hs x hx
    rcases h.2.2.2 with hc | hk
    · exact hc
    · rcases (mem_keysOf_iff p x).mp hk with ⟨ch, hch, hchx⟩
      rw [← hchx]
      exact hpc ch hch

/-- Witness for the amended C2: profile preserving "ñ", input "ñÉ" — the
preserved "ñ" survives, and the non-preserved "É" contributes its base "e". -/
theorem C2_preserve_amended_witness :
    (0xF1 : Nat) ∈ normalize_text ⟨[0xF1], []⟩ [0xF1, 0xC9]
    ∧ (101 : Nat) ∈ normalize_text ⟨[0xF1], []⟩ [0xF1, 0xC9] :=
  ⟨(C2_preserve_amended ⟨[0xF1], []⟩ rfl (by decide) (by decide) [0xF1, 0xC9]
      (by decide)).1 0xF1 (by decide) (by decide) (by decide),
   (C2_preserve_amended ⟨[0xF1], []⟩ rfl (by decide) (by decide) [0xF1, 0xC9]
      (by decide)).2.1 0xC9 (by decide) (by decide) 101 0x301 (by decide) (by decide)
      (by decide)⟩

instance (cfg : RerankCfg) (q : Str) : IsTotal Candidate (candLe cfg q) :=
  ⟨fun a b => le_total (keyOf cfg q a) (keyOf cfg q b)⟩

instance (cfg : RerankCfg) (q : Str) : IsTrans Candidate (candLe cfg q) :=
  ⟨fun _ _ _ h1 h2 => le_trans h1 h2⟩

/-- The reranked pool is sorted by the key tuples. -/
theorem rerankPool_sorted (cfg : RerankCfg) (q : Str) (items : List Candidate) :
    List.Sorted (candLe cfg q) (rerankPool cfg q items) :=
  List.sorted_insertionSort (candLe cfg q) items

/-- A candidate is an exact match when its normalized title equals the
normalized query (the first tier of the sort key). -/
def isExactMatch (cfg : RerankCfg) (q : Str) (res : Candidate) : Prop :=
  vNormalize cfg res.title = vNormalize cfg q

instance (cfg : RerankCfg) (q : Str) (res : Candidate) :
    Decidable (isExactMatch cfg q res) :=
  inferInstanceAs (Decidable (vNormalize cfg res.title = vNormalize cfg q))

/-- The first component of a candidate's sort key is `false` exactly on exact
matches. -/
theorem keyOf_fst (cfg : RerankCfg) (q : Str) (res : Candidate) :
    (ofLex (keyOf cfg q res)).1 = false ↔ isExactMatch cfg q res := by
  unfold keyOf keyFromNorm isExactMatch
  by_cases h : vNormalize cfg res.title = vNormalize cfg q <;> simp [h]

/-- Lexicographic comparison is monotone in the first component. -/
theorem le_fst_of_keyLe {a b : RerankKey} (h : a ≤ b) : (ofLex a).1 ≤ (ofLex b).1 := by
  have h' : toLex (ofLex a) ≤ toLex (ofLex b) := h
  rcases (Prod.Lex.le_iff (ofLex a) (ofLex b)).mp h' with h1 | h1
  · exact le_of_lt h1
  · exact le_of_eq h1.1

/-- Claim C3: in the reranked pool, exact normalized-title matches form a
prefix — every exact match sorts strictly before every non-exact match,
whatever the backend scores (stated contrapositively: anything at or before
an exact match is itself exact). -/
theorem C3_exact_before_nonexact (cfg : RerankCfg) (q : Str) (items : List Candidate)
    (i j : Nat) (hij : i ≤ j) (hj : j < (rerankPool cfg q items).length)
    (hex : isExactMatch cfg q ((rerankPool cfg q items).get ⟨j, hj⟩)) :
    isExactMatch cfg q ((rerankPool cfg q items).get ⟨i, Nat.lt_of_le_of_lt hij hj⟩) := by
  rcases Nat.lt_or_ge i j with hlt | hge
  · have hrel := (rerankPool_sorted cfg q items).rel_get_of_lt
      (show (⟨i, Nat.lt_of_le_of_lt hij hj⟩ : Fin (rerankPool cfg q items).length)
        < ⟨j, hj⟩ from hlt)
    have hfst := le_fst_of_keyLe hrel
    have hjf : (ofLex (keyOf cfg q ((rerankPool cfg q items).get ⟨j, hj⟩))).1 = false :=
      (keyOf_fst cfg q _).mpr hex
    rw [hjf] at hfst
    have : (ofLex (keyOf cfg q ((rerankPool cfg q items).get
        ⟨i, Nat.lt_of_le_of_lt hij hj⟩))).1 = false := by
      revert hfst
      cases (ofLex (keyOf cfg q ((rerankPool cfg q items).get
        ⟨i, Nat.lt_of_le_of_lt hij hj⟩))).1 <;> simp
    exact (keyOf_fst cfg q _).mp this
  · have hji : i = j := Nat.le_antisymm hij hge
    subst hji
    exact hex

unseal Rat.add Rat.mul Rat.inv in
example :
    rerankPool ⟨regexTokens, ⟨[], []⟩, []⟩ (strLit "Annual Report")
        [⟨strLit "Annual Report", 1/5⟩, ⟨strLit "Report on Annual Review", 99/10⟩,
         ⟨strLit "Annual Report", 3⟩]
      = [⟨strLit "Annual Report", 3⟩, ⟨strLit "Annual Report", 1/5⟩,
         ⟨strLit "Report on Annual Review", 99/10⟩] := by decide

-- Witness for C3 at the claim's own example (query "Annual Report",
-- candidates "Annual Report" at score 0.2 and "Report on Annual Review" at
-- score 9.9, plus a second exact match): the entry at index 0 ahead of the
-- exact match at index 1 is itself exact.
unseal Rat.add Rat.mul Rat.inv in
theorem C3_exact_before_nonexact_witness :
    isExactMatch ⟨regexTokens, ⟨[], []⟩, []⟩ (strLit "Annual Report")
      ((rerankPool ⟨regexTokens, ⟨[], []⟩, []⟩ (strLit "Annual Report")
          [⟨strLit "Annual Report", 1/5⟩, ⟨strLit "Report on Annual Review", 99/10⟩,
           ⟨strLit "Annual Report", 3⟩]).get ⟨0, by decide⟩) :=
  C3_exact_before_nonexact ⟨regexTokens, ⟨[], []⟩, []⟩ (strLit "Annual Report")
    [⟨strLit "Annual Report", 1/5⟩, ⟨strLit "Report on Annual Review", 99/10⟩,
     ⟨strLit "Annual Report", 3⟩] 0 1 (by decide) (by decide) (by decide)

theorem lookupCache_valid {β : Type} (f : Str → β) :
    ∀ (c : List (Str × β)), (∀ kv ∈ c, kv.2 = f kv.1) →
      ∀ t v, lookupCache c t = some v → v = f t := by
  intro c
  induction c with
  | nil => intro _ t v h; cases h
  | cons kv rest ih =>
    intro hval t v h
    simp only [lookupCache] at h
    by_cases hk : kv.1 = t
    · rw [if_pos hk] at h
      have := hval kv (List.mem_cons_self kv rest)
      rw [← hk, ← this]
      exact (Option.some_inj.mp h).symm
    · rw [if_neg hk] at h
      exact ih (fun p hp => hval p (List.mem_cons_of_mem kv hp)) t v h

theorem cacheGet_fst {β : Type} (c : List (Str × β)) (t : Str) (f : Str → β)
    (hval : ∀ kv ∈ c, kv.2 = f kv.1) : (cacheGet c t f).1 = f t := by
  unfold cacheGet
  rcases h : lookupCache c t with _ | v
  · rfl
  · exact lookupCache_valid f c hval t v h

theorem cacheGet_valid {β : Type} (c : List (Str × β)) (t : Str) (f : Str → β)
    (hval : ∀ kv ∈ c, kv.2 = f kv.1) : ∀ kv ∈ (cacheGet c t f).2, kv.2 = f kv.1 := by
  unfold cacheGet
  rcases h : lookupCache c t with _ | v
  · intro kv hkv
    rcases List.mem_cons.mp hkv with rfl | hkv'
    · rfl
    · exact hval kv hkv'
  · exact hval

/-- For an exact match the key does not consult the token list. -/
theorem keyFromNorm_exact (q_norm : Str) (q_tokens : Finset Str) (res : Candidate)
    (tn : Str) (h : tn = q_norm) (toks toks' : List Str) :
    keyFromNorm q_norm q_tokens res tn toks = keyFromNorm q_norm q_tokens res tn toks' := by
  unfold keyFromNorm
  rw [if_pos h, if_pos h]

/-- Decorating with valid caches computes exactly the cache-free keys. -/
theorem decorate_eq (cfg : RerankCfg) (q_norm : Str) (q_tokens : Finset Str) :
    ∀ (items : List Candidate) (nc : List (Str × Str)) (tc : List (Str × List Str)),
      (∀ kv ∈ nc, kv.2 = vNormalize cfg kv.1) → (∀ kv ∈ tc, kv.2 = vTokens cfg kv.1) →
      decorate cfg q_norm q_tokens items nc tc
        = items.map (fun res =>
            keyFromNorm q_norm q_tokens res (vNormalize cfg res.title)
              (vTokens cfg res.title)) := by
  intro items
  induction items with
  | nil => intros; rfl
  | cons res rest ih =>
    intro nc tc hnc htc
    have hn := cacheGet_fst nc res.title (vNormalize cfg) hnc
    have hn2 := cacheGet_valid nc res.title (vNormalize cfg) hnc
    simp only [decorate, List.map_cons, hn]
    by_cases hex : vNormalize cfg res.title = q_norm
    · rw [if_pos hex, keyFromNorm_exact q_norm q_tokens res _ hex [] (vTokens cfg res.title)]
      rw [ih _ _ hn2 htc]
    · have ht := cacheGet_fst tc res.title (vTokens cfg) htc
      have ht2 := cacheGet_valid tc res.title (vTokens cfg) htc
      rw [if_neg hex, ht, ih _ _ hn2 ht2]

theorem orderedInsert_pairs (cfg : RerankCfg) (q : Str) :
    ∀ (l : List (Candidate × RerankKey)) (pr : Candidate × RerankKey),
      pr.2 = keyOf cfg q pr.1 → (∀ x ∈ l, x.2 = keyOf cfg q x.1) →
      (List.orderedInsert pairKeyLe pr l).map Prod.fst
        = List.orderedInsert (candLe cfg q) pr.1 (l.map Prod.fst) := by
  intro l
  induction l with
  | nil => intro pr _ _; rfl
  | cons x xs ih =>
    intro pr hpr hl
    have hx : x.2 = keyOf cfg q x.1 := hl x (List.mem_cons_self x xs)
    simp only [List.orderedInsert, List.map_cons]
    by_cases h : candLe cfg q pr.1 x.1
    · have h2 : pairKeyLe pr x := by
        unfold pairKeyLe
        rw [hpr, hx]
        exact h
      rw [if_pos h2, if_pos h]
      simp
    · have h2 : ¬ pairKeyLe pr x := by
        unfold pairKeyLe
        rw [hpr, hx]
        exact h
      rw [if_neg h2, if_neg h]
      simp only [List.map_cons, List.cons.injEq, true_and]
      exact ih pr hpr (fun y hy => hl y (List.mem_cons_of_mem x hy))

theorem insertionSort_pairs (cfg : RerankCfg) (q : Str) :
    ∀ (l : List (Candidate × RerankKey)), (∀ x ∈ l, x.2 = keyOf cfg q x.1) →
      (List.insertionSort pairKeyLe l).map Prod.fst
        = List.insertionSort (candLe cfg q) (l.map Prod.fst) := by
  intro l
  induction l with
  | nil => intro _; rfl
  | cons x xs ih =>
    intro hl
    simp only [List.insertionSort, List.map_cons]
    rw [orderedInsert_pairs cfg q _ x (hl x (List.mem_cons_self x xs))
      (fun y hy => hl y (List.mem_cons_of_mem x
        ((List.perm_insertionSort pairKeyLe xs).mem_iff.mp hy)))]
    rw [ih (fun y hy => hl y (List.mem_cons_of_mem x hy))]

theorem zip_map_valid {α β : Type} (f : α → β) :
    ∀ (l : List α), ∀ x ∈ l.zip (l.map f), x.2 = f x.1 := by
  intro l
  induction l with
  | nil => intro x hx; cases hx
  | cons a rest ih =>
    intro x hx
    simp only [List.map_cons, List.zip_cons_cons] at hx
    rcases List.mem_cons.mp hx with rfl | hx'
    · rfl
    · exact ih x hx'

/-- The memoizing decorate-sort-undecorate of `paginate_queryset` equals the
cache-free stable sort by key: the caches are a pure optimization. -/
theorem rerankCached_eq_rerankPool (cfg : RerankCfg) (q : Str) (items : List Candidate) :
    rerankCached cfg q items = rerankPool cfg q items := by
  simp only [rerankCached]
  rw [decorate_eq cfg (vNormalize cfg q) ((vTokens cfg q).toFinset) items [] []
    (by intro kv h; cases h) (by intro kv h; cases h)]
  show (List.insertionSort pairKeyLe (items.zip (List.map (keyOf cfg q) items))).map Prod.fst
    = rerankPool cfg q items
  rw [insertionSort_pairs cfg q _ (zip_map_valid (keyOf cfg q) items)]
  rw [List.map_fst_zip items _ (by simp)]
  rfl

/-- Claim C9: reranking is deterministic — the run with memoizing caches is
equal to the cache-free rerank of the same pool (hence two runs on identical
inputs produce identical orderings), and candidates with equal title and
score (duplicate titles in particular) get identical sort keys. -/
theorem C9_rerank_deterministic (cfg : RerankCfg) (q : Str) (items : List Candidate) :
    rerankCached cfg q items = rerankPool cfg q items
    ∧ ∀ r1 r2 : Candidate, r1.title = r2.title → r1.score = r2.score →
        keyOf cfg q r1 = keyOf cfg q r2 := by
  refine ⟨rerankCached_eq_rerankPool cfg q items, ?_⟩
  intro r1 r2 ht hsc
  unfold keyOf keyFromNorm
  rw [ht, hsc]

/-- Witness for C9 at a concrete pool and a duplicate candidate. -/
theorem C9_rerank_deterministic_witness :
    rerankCached ⟨regexTokens, ⟨[], []⟩, []⟩ (strLit "report")
        [⟨strLit "Annual Report", 1⟩]
      = rerankPool ⟨regexTokens, ⟨[], []⟩, []⟩ (strLit "report")
        [⟨strLit "Annual Report", 1⟩]
    ∧ keyOf ⟨regexTokens, ⟨[], []⟩, []⟩ (strLit "report") ⟨strLit "Annual Report", 1⟩
      = keyOf ⟨regexTokens, ⟨[], []⟩, []⟩ (strLit "report") ⟨strLit "Annual Report", 1⟩ :=
  ⟨(C9_rerank_deterministic ⟨regexTokens, ⟨[], []⟩, []⟩ (strLit "report")
      [⟨strLit "Annual Report", 1⟩]).1,
   (C9_rerank_deterministic ⟨regexTokens, ⟨[], []⟩, []⟩ (strLit "report")
      [⟨strLit "Annual Report", 1⟩]).2 ⟨strLit "Annual Report", 1⟩
      ⟨strLit "Annual Report", 1⟩ rfl rfl⟩

theorem dropWhile_length_le {α : Type} (p : α → Bool) :
    ∀ l : List α, (l.dropWhile p).length ≤ l.length := by
  intro l
  induction l with
  | nil => simp [List.dropWhile]
  | cons a rest ih =>
    simp only [List.dropWhile]
    split
    · exact ih.trans (Nat.le_succ _)
    · exact le_rfl

theorem mem_of_mem_dropWhile {α : Type} (p : α → Bool) :
    ∀ (l : List α) (x : α), x ∈ l.dropWhile p → x ∈ l := by
  intro l
  induction l with
  | nil => intro x hx; exact hx
  | cons a rest ih =>
    intro x hx
    by_cases hpa : p a = true
    · simp only [List.dropWhile, hpa] at hx
      exact List.mem_cons_of_mem a (ih x hx)
    · rw [Bool.not_eq_true] at hpa
      simp only [List.dropWhile, hpa] at hx
      exact hx

theorem dropWhile_head_false {α : Type} (p : α → Bool) :
    ∀ (l : List α) (y : α), (l.dropWhile p).head? = some y → p y = false := by
  intro l
  induction l with
  | nil => intro y hy; cases hy
  | cons a rest ih =>
    intro y hy
    by_cases hpa : p a = true
    · simp only [List.dropWhile, hpa] at hy
      exact ih y hy
    · rw [Bool.not_eq_true] at hpa
      simp only [List.dropWhile, hpa, List.head?_cons] at hy
      rcases Option.some_inj.mp hy with rfl
      exact hpa

theorem collapseWsF_mem :
    ∀ (f : Nat) (s : Str), ∀ x ∈ collapseWsF f s, x ∈ s ∨ x = 32 := by
  intro f
  induction f with
  | zero => intro s x hx; exact Or.inl hx
  | succ f ih =>
    intro s x hx
    cases s with
    | nil => cases hx
    | cons c rest =>
      simp only [collapseWsF] at hx
      by_cases hc : isSpaceCp c = true
      · rw [if_pos hc] at hx
        rcases List.mem_cons.mp hx with rfl | hx'
        · exact Or.inr rfl
        · rcases ih _ x hx' with h | h
          · exact Or.inl (List.mem_cons_of_mem c (mem_of_mem_dropWhile isSpaceCp rest x h))
          · exact Or.inr h
      · rw [if_neg hc] at hx
        rcases List.mem_cons.mp hx with rfl | hx'
        · exact Or.inl (List.mem_cons_self x rest)
        · rcases ih rest x hx' with h | h
          · exact Or.inl (List.mem_cons_of_mem c h)
          · exact Or.inr h

theorem filter_not_dropWhile {α : Type} (p : α → Bool) :
    ∀ l : List α, (l.dropWhile p).filter (fun c => !p c) = l.filter (fun c => !p c) := by
  intro l
  induction l with
  | nil => rfl
  | cons a rest ih =>
    by_cases hpa : p a = true
    · simp only [List.dropWhile, hpa, ih, List.filter_cons, Bool.not_true]
      simp
    · rw [Bool.not_eq_true] at hpa
      simp only [List.dropWhile, hpa]

theorem collapseWsF_filter :
    ∀ (f : Nat) (s : Str), s.length ≤ f →
      (collapseWsF f s).filter (fun c => !isSpaceCp c)
        = s.filter (fun c => !isSpaceCp c) := by
  intro f
  induction f with
  | zero => intro s _; rfl
  | succ f ih =>
    intro s hs
    cases s with
    | nil => rfl
    | cons c rest =>
      have hlenr : rest.length ≤ f := by simpa using hs
      simp only [collapseWsF]
      by_cases hc : isSpaceCp c = true
      · rw [if_pos hc, List.filter_cons, List.filter_cons]
        have h32 : (!isSpaceCp (32 : Nat)) = false := by decide
        simp only [h32, hc, Bool.not_true, Bool.false_eq_true, if_false]
        rw [ih _ ((dropWhile_length_le isSpaceCp rest).trans hlenr)]
        exact filter_not_dropWhile isSpaceCp rest
      · have hcf : isSpaceCp c = false := by
          rw [Bool.not_eq_true] at hc
          exact hc
        rw [if_neg hc, List.filter_cons, List.filter_cons]
        simp only [hcf, Bool.not_false, if_true]
        rw [ih rest hlenr]

theorem collapseWsF_head :
    ∀ (f : Nat) (s : Str), (∀ y, s.head? = some y → isSpaceCp y = false) →
      ∀ y, (collapseWsF f s).head? = some y → isSpaceCp y = false := by
  intro f s hhead y hy
  cases f with
  | zero => exact hhead y hy
  | succ f =>
    cases s with
    | nil => cases hy
    | cons c rest =>
      have hc : isSpaceCp c = false := hhead c rfl
      simp only [collapseWsF, hc] at hy
      rw [if_neg (by simp [hc])] at hy
      rcases Option.some_inj.mp hy with rfl
      exact hc

theorem collapseWsF_chain :
    ∀ (f : Nat) (s : Str), s.length ≤ f →
      List.Chain' (fun a b => ¬(isSpaceCp a = true ∧ isSpaceCp b = true)) (collapseWsF f s) := by
  intro f
  induction f with
  | zero =>
    intro s hs
    have : s = [] := List.length_eq_zero.mp (Nat.le_zero.mp hs)
    subst this
    exact List.chain'_nil
  | succ f ih =>
    intro s hs
    cases s with
    | nil => exact List.chain'_nil
    | cons c rest =>
      simp only [collapseWsF]
      by_cases hc : isSpaceCp c = true
      · rw [if_pos hc]
        apply List.chain'_cons'.mpr
        constructor
        · intro y hy
          have hyf : isSpaceCp y = false :=
            collapseWsF_head f _ (fun z hz => dropWhile_head_false isSpaceCp rest z hz) y hy
          rintro ⟨_, h2⟩
          rw [hyf] at h2
          exact Bool.false_ne_true h2
        · exact ih _ ((dropWhile_length_le isSpaceCp rest).trans (by simpa using hs))
      · rw [if_neg hc]
        apply List.chain'_cons'.mpr
        refine ⟨fun y _ => fun hcontra => hc hcontra.1, ih rest (by simpa using hs)⟩

theorem filter_subDisallowed :
    ∀ l : Str, (subDisallowed l).filter (fun c => !isSpaceCp c)
      = l.filter (fun c => allowedQCp c && !isSpaceCp c) := by
  intro l
  induction l with
  | nil => rfl
  | cons a rest ih =>
    have hcons : subDisallowed (a :: rest)
        = (if allowedQCp a then a else 32) :: subDisallowed rest := rfl
    rw [hcons, List.filter_cons, List.filter_cons]
    by_cases ha : allowedQCp a = true
    · rw [if_pos ha]
      simp only [ha, Bool.true_and]
      by_cases hsa : isSpaceCp a = true <;> simp [hsa, ih]
    · rw [if_neg ha]
      simp only [ha, Bool.false_and]
      have h32 : (!isSpaceCp (32 : Nat)) = false := by decide
      simp [h32, ih]

/-- Claim C7 (counterexample): `_q` does not REMOVE disallowed characters —
it replaces them by a space — and it keeps the underscore (part of `\w`).
On "a_b!c" the claim's sanitizer ("remove characters outside letters, digits,
whitespace, hyphen") yields "abc", but `_q` yields "a_b c". -/
theorem C7_counterexample :
    sanitize_q (strLit "a_b!c") ≠ sanitizeSpecC7 (strLit "a_b!c") := by decide

/-- Claim C7 (amended): the sanitized query equals the input stripped of
leading/trailing whitespace with every character outside
[word characters (letters, digits, underscore), whitespace, hyphen] replaced
by a single space and whitespace runs collapsed.  Extensionally: every output
codepoint is allowed; the non-whitespace output codepoints are exactly the
allowed non-whitespace codepoints of the stripped input, in order; and no two
adjacent output codepoints are both whitespace. -/
theorem C7_sanitize_amended (s : Str) :
    (∀ c ∈ sanitize_q s, allowedQCp c = true)
    ∧ (sanitize_q s).filter (fun c => !isSpaceCp c)
        = (pyStrip s).filter (fun c => allowedQCp c && !isSpaceCp c)
    ∧ List.Chain' (fun a b => ¬(isSpaceCp a = true ∧ isSpaceCp b = true)) (sanitize_q s) := by
  refine ⟨?_, ?_, ?_⟩
  · intro c hc
    rcases collapseWsF_mem _ _ c hc with h | rfl
    · rcases List.mem_map.mp h with ⟨x, _, rfl⟩
      by_cases hx : allowedQCp x = true
      · rwa [if_pos hx]
      · rw [if_neg hx]
        decide
    · decide
  · show ((collapseWs (subDisallowed (pyStrip s))).filter fun c => !isSpaceCp c) = _
    unfold collapseWs
    rw [collapseWsF_filter _ _ le_rfl]
    exact filter_subDisallowed (pyStrip s)
  · exact collapseWsF_chain _ _ le_rfl

theorem C7_sanitize_amended_witness :
    allowedQCp 97 = true
    ∧ (sanitize_q (strLit " a_b!c ")).filter (fun c => !isSpaceCp c)
        = (pyStrip (strLit " a_b!c ")).filter (fun c => allowedQCp c && !isSpaceCp c)
    ∧ List.Chain' (fun a b => ¬(isSpaceCp a = true ∧ isSpaceCp b = true))
        (sanitize_q (strLit " a_b!c ")) :=
  ⟨(C7_sanitize_amended (strLit " a_b!c ")).1 97 (by decide),
   (C7_sanitize_amended (strLit " a_b!c ")).2.1,
   (C7_sanitize_amended (strLit " a_b!c ")).2.2⟩

theorem setSpelling_keys (d : List (Str × SchemaEntry)) (name : Str) :
    (setSpelling d name).map Prod.fst = d.map Prod.fst := by
  unfold setSpelling
  rw [List.map_map]
  apply List.map_congr_left
  intro p _
  by_cases hp : p.1 = name <;> simp [hp]

theorem setSpelling_length (d : List (Str × SchemaEntry)) (name : Str) :
    (setSpelling d name).length = d.length := by
  unfold setSpelling
  exact List.length_map d _

theorem pyDictInsert_keys_of_mem {α β : Type} [DecidableEq α] :
    ∀ (d : List (α × β)) (k : α) (v : β), k ∈ d.map Prod.fst →
      (pyDictInsert d k v).map Prod.fst = d.map Prod.fst := by
  intro d
  induction d with
  | nil => intro k v h; cases h
  | cons p ps ih =>
    intro k v h
    simp only [pyDictInsert]
    by_cases hp : p.1 = k
    · rw [if_pos hp]
      simp [hp]
    · rw [if_neg hp]
      simp only [List.map_cons] at h ⊢
      rcases List.mem_cons.mp h with h1 | h1
      · exact absurd h1.symm hp
      · rw [ih k v h1]

theorem pyDictInsert_length_of_mem {α β : Type} [DecidableEq α] :
    ∀ (d : List (α × β)) (k : α) (v : β), k ∈ d.map Prod.fst →
      (pyDictInsert d k v).length = d.length := by
  intro d
  induction d with
  | nil => intro k v h; cases h
  | cons p ps ih =>
    intro k v h
    simp only [pyDictInsert]
    by_cases hp : p.1 = k
    · rw [if_pos hp]
      simp
    · rw [if_neg hp]
      simp only [List.map_cons] at h
      rcases List.mem_cons.mp h with h1 | h1
      · exact absurd h1.symm hp
      · simp [ih k v h1]

theorem pyDictInsert_length_of_not_mem {α β : Type} [DecidableEq α] :
    ∀ (d : List (α × β)) (k : α) (v : β), k ∉ d.map Prod.fst →
      (pyDictInsert d k v).length = d.length + 1 := by
  intro d
  induction d with
  | nil => intro k v _; rfl
  | cons p ps ih =>
    intro k v h
    simp only [List.map_cons, List.mem_cons, not_or] at h
    have hne : ¬ p.1 = k := fun hp => h.1 hp.symm
    simp only [pyDictInsert, if_neg hne, List.length_cons]
    rw [ih k v h.2]

/-- One schema step keeps the keys when the fieldname is already present. -/
theorem buildSchemaStep_keys_of_mem (acc : List (Str × SchemaEntry) × Str) (fc : FieldClass)
    (h : fc.index_fieldname ∈ acc.1.map Prod.fst) :
    (buildSchemaStep acc fc).1.map Prod.fst = acc.1.map Prod.fst
    ∧ (buildSchemaStep acc fc).1.length = acc.1.length := by
  unfold buildSchemaStep
  by_cases hdoc : fc.document = true
  · simp only [hdoc, if_true]
    constructor
    · rw [setSpelling_keys, pyDictInsert_keys_of_mem _ _ _ h]
    · rw [setSpelling_length, pyDictInsert_length_of_mem _ _ _ h]
  · simp only [hdoc, if_false]
    exact ⟨pyDictInsert_keys_of_mem _ _ _ h, pyDictInsert_length_of_mem _ _ _ h⟩

/-- One schema step grows the dict by one when the fieldname is new. -/
theorem buildSchemaStep_length_of_not_mem (acc : List (Str × SchemaEntry) × Str)
    (fc : FieldClass) (h : fc.index_fieldname ∉ acc.1.map Prod.fst) :
    (buildSchemaStep acc fc).1.length = acc.1.length + 1 := by
  unfold buildSchemaStep
  by_cases hdoc : fc.document = true
  · simp only [hdoc, if_true]
    rw [setSpelling_length, pyDictInsert_length_of_not_mem _ _ _ h]
  · simp only [hdoc, if_false]
    exact pyDictInsert_length_of_not_mem _ _ _ h

theorem buildSchemaStep_length_ge (acc : List (Str × SchemaEntry) × Str) (fc : FieldClass) :
    acc.1.length ≤ (buildSchemaStep acc fc).1.length := by
  by_cases h : fc.index_fieldname ∈ acc.1.map Prod.fst
  · rw [(buildSchemaStep_keys_of_mem acc fc h).2]
  · rw [buildSchemaStep_length_of_not_mem acc fc h]
    exact Nat.le_succ _

theorem schema_fold_length_mono :
    ∀ (fields : List FieldClass) (acc : List (Str × SchemaEntry) × Str),
      acc.1.length ≤ (fields.foldl buildSchemaStep acc).1.length := by
  intro fields
  induction fields with
  | nil => intro acc; exact le_rfl
  | cons fc rest ih =>
    intro acc
    simp only [List.foldl_cons]
    exact (buildSchemaStep_length_ge acc fc).trans (ih (buildSchemaStep acc fc))

theorem schema_fold_length_eq_iff :
    ∀ (fields : List FieldClass) (acc : List (Str × SchemaEntry) × Str),
      ((fields.foldl buildSchemaStep acc).1.length = acc.1.length
        ↔ ∀ fc ∈ fields, fc.index_fieldname ∈ acc.1.map Prod.fst) := by
  intro fields
  induction fields with
  | nil => intro acc; simp
  | cons fc rest ih =>
    intro acc
    simp only [List.foldl_cons]
    by_cases hmem : fc.index_fieldname ∈ acc.1.map Prod.fst
    · have hstep := buildSchemaStep_keys_of_mem acc fc hmem
      rw [show (rest.foldl buildSchemaStep (buildSchemaStep acc fc)).1.length = acc.1.length
            ↔ (rest.foldl buildSchemaStep (buildSchemaStep acc fc)).1.length
              = (buildSchemaStep acc fc).1.length by rw [hstep.2]]
      rw [ih (buildSchemaStep acc fc)]
      constructor
      · intro h fc' hfc'
        rcases List.mem_cons.mp hfc' with rfl | hfc''
        · exact hmem
        · rw [← hstep.1]
          exact h fc' hfc''
      · intro h fc' hfc'
        rw [hstep.1]
        exact h fc' (List.mem_cons_of_mem fc hfc')
    · have hgrow := buildSchemaStep_length_of_not_mem acc fc hmem
      have hge := schema_fold_length_mono rest (buildSchemaStep acc fc)
      rw [hgrow] at hge
      constructor
      · intro h
        omega
      · intro h
        exact absurd (h fc (List.mem_cons_self fc rest)) hmem

/-- Claim C8: `build_schema` succeeds exactly when some descriptor contributes
a field beyond the three mandatory identity keys (`id`, `django_ct`,
`django_id`); with only identity-named (or no) descriptors it raises the
configuration error. -/
theorem C8_build_schema (fields : List FieldClass) :
    (build_schema fields).isOk = true
      ↔ ∃ fc ∈ fields, fc.index_fieldname ∉ [haystackID, haystackCT, haystackDID] := by
  unfold build_schema
  have hkeys : initSchemaFields.map Prod.fst = [haystackID, haystackCT, haystackDID] := rfl
  have hlen : initSchemaFields.length = 3 := rfl
  have hiff := schema_fold_length_eq_iff fields (initSchemaFields, [])
  have hge := schema_fold_length_mono fields (initSchemaFields, [])
  by_cases h : (fields.foldl buildSchemaStep (initSchemaFields, [])).1.length
      ≤ initSchemaFields.length
  · rw [if_pos h]
    constructor
    · intro hok
      exact absurd hok (by decide)
    · rintro ⟨fc, hfc, hmem⟩
      exfalso
      have heq : (fields.foldl buildSchemaStep (initSchemaFields, [])).1.length
          = initSchemaFields.length := Nat.le_antisymm h hge
      exact hmem ((hiff.mp heq) fc hfc)
  · rw [if_neg h]
    refine ⟨fun _ => ?_, fun _ => rfl⟩
    by_contra hno
    push_neg at hno
    have hall : ∀ fc ∈ fields, fc.index_fieldname ∈ (initSchemaFields, ([] : Str)).1.map Prod.fst :=
      fun fc hfc => hno fc hfc
    exact h (le_of_eq (hiff.mpr hall))
